import Mathlib

/-! ### Definitions: the shallow embedding and spec-side quantities -/

deriving instance DecidableEq for Except

/-- Error type of the transaction layer; the variants used by the validator. -/
inductive TransactionError where
  | MoreThanOneCoinbase
  | NoCoinbase
  | InputMaturity
  | InvalidSignature
  | InvalidRangeProof
  | InvalidScript
deriving DecidableEq

/-- Validation errors surfaced by the block-body validator. -/
inductive ValidationError where
  | TransactionError (e : TransactionError)
  | UnsortedOrDuplicateInput
  | UnsortedOrDuplicateOutput
  | MaturityError
  | UnknownInput
  | UnknownInputs (hashes : List Nat)
  | BlockTooLarge
  | ContainsTxO
  | CoinbaseValueMismatch
  | ScriptOffsetMismatch
  | KernelSumMismatch
  | MmrRootMismatch
  | DatabaseError
deriving DecidableEq

/-- A transaction kernel: excess commitment, excess signature, fee, lock
height, features.  `ser` stands for the canonical serialised form that
induces the canonical total order; `sig_valid` is the (pure) result of
`kernel.verify_signature()`; `is_coinbase` is the coinbase feature flag. -/
structure TransactionKernel where
  ser : Nat
  is_coinbase : Bool
  fee : Nat
  lock_height : Nat
  excess : Int
  sig_valid : Bool
deriving DecidableEq

/-- A transaction output.  `hash` is the output hash `o.hash()`;
`metadata_sig_valid` and `range_proof_valid` are the pure results of
`verify_metadata_signature` and `verify_range_proof`. -/
structure TransactionOutput where
  ser : Nat
  hash : Nat
  is_coinbase : Bool
  commitment : Int
  sender_offset_public_key : Int
  metadata_sig_valid : Bool
  range_proof_valid : Bool
deriving DecidableEq

/-- A transaction input.  `output_hash` references the spent output;
`maturity` is the input's maturity height (`is_mature_at h` is
`maturity ≤ h`); `script_key` is the result of
`run_and_verify_script` (`none` means the script fails). -/
structure TransactionInput where
  ser : Nat
  output_hash : Nat
  maturity : Nat
  commitment : Int
  script_key : Option Int
deriving DecidableEq

/-- Block header: only the fields the body validator reads. -/
structure BlockHeader where
  height : Nat
  total_kernel_offset : Int
deriving DecidableEq

/-- The three ordered element sequences of a block body. -/
structure AggregateBody where
  inputs : List TransactionInput
  outputs : List TransactionOutput
  kernels : List TransactionKernel
deriving DecidableEq

/-- A block: header plus body. -/
structure Block where
  header : BlockHeader
  body : AggregateBody
deriving DecidableEq

/-- Running kernel sum: accumulated excess (curve point) and fees. -/
structure KernelSum where
  sum : Int
  fees : Nat
deriving DecidableEq

/-- Join product of kernel validation. -/
structure KernelValidationData where
  kernels : List TransactionKernel
  kernel_sum : KernelSum
  coinbase_index : Nat
deriving DecidableEq

/-- Join product of output validation. -/
structure OutputValidationData where
  outputs : List TransactionOutput
  commitment_sum : Int
  aggregate_offset_pubkey : Int
  coinbase_index : Nat
deriving DecidableEq

/-- Join product of input validation. -/
structure InputValidationData where
  inputs : List TransactionInput
  aggregate_input_key : Int
  commitment_sum : Int
deriving DecidableEq

/-- The coinbase accessor `&self.kernels[self.coinbase_index]`; the source
indexes the vector directly (panicking when out of bounds), which is
modelled by the optional lookup. -/
def KernelValidationData.coinbase (d : KernelValidationData) : Option TransactionKernel :=
  d.kernels[d.coinbase_index]?

/-- The coinbase accessor `&self.outputs[self.coinbase_index]`, modelled
like the kernel one. -/
def OutputValidationData.coinbase (d : OutputValidationData) : Option TransactionOutput :=
  d.outputs[d.coinbase_index]?

/-- Fallback kernel used to totalise the direct vector indexing of the
source at the call sites of the coinbase accessors. -/
def defaultKernel : TransactionKernel :=
  { ser := 0, is_coinbase := false, fee := 0, lock_height := 0, excess := 0, sig_valid := false }

/-- Fallback output, like `defaultKernel`. -/
def defaultOutput : TransactionOutput :=
  { ser := 0, hash := 0, is_coinbase := false, commitment := 0,
    sender_offset_public_key := 0, metadata_sig_valid := false, range_proof_valid := false }

/-- The `BlockValidator` structure.  `concurrency` and
`bypass_range_proof_verification` are its configuration fields; the
function fields are the consensus rules, commitment factory, database
snapshot and helper functions it is constructed with.  Each oracle is a
pure function, exactly as the corresponding source item is deterministic
in its arguments:

* `calculate_coinbase_and_fees` — `rules.calculate_coinbase_and_fees`;
* `commit_value` — `factories.commitment.commit_value`;
* `check_input_is_utxo` — `helpers::check_input_is_utxo` against the
  read snapshot (not under the sources verified here, hence opaque);
* `check_not_duplicate_txo` — `helpers::check_not_duplicate_txo`;
* `check_block_weight`, `check_coinbase_reward`, `check_script_offset`,
  `check_kernel_sum` — the corresponding helpers;
* `check_mmr_roots_stage` — the composition of
  `db.calculate_mmr_roots` and `helpers::check_mmr_roots` performed by
  `BlockValidator::check_mmr_roots`; the database recomputes the roots
  from the block read-only and hands the block back unchanged. -/
structure BlockValidator where
  concurrency : Nat
  bypass_range_proof_verification : Bool
  calculate_coinbase_and_fees : Nat → List TransactionKernel → Nat
  commit_value : Int → Nat → Int
  check_input_is_utxo : TransactionInput → Except ValidationError Unit
  check_not_duplicate_txo : TransactionOutput → Except ValidationError Unit
  check_block_weight : Block → Except ValidationError Unit
  check_coinbase_reward : BlockHeader → Nat → TransactionKernel → TransactionOutput → Except ValidationError Unit
  check_script_offset : BlockHeader → Int → Int → Except ValidationError Unit
  check_kernel_sum : KernelSum → Int → Int → Except ValidationError Unit
  check_mmr_roots_stage : Block → Except ValidationError Unit

/-- Modelled from the spec: `helpers::is_all_unique_and_sorted` (the
helper module is not among the sources verified here).  The spec:
"strict ascending under the element's canonical order", applied to the
canonical serialised forms. -/
def is_all_unique_and_sorted : List Nat → Bool
  | [] => true
  | [_] => true
  | a :: b :: rest => a < b && is_all_unique_and_sorted (b :: rest)

/-- The body of the `for (i, kernel) in kernels.iter().enumerate()` loop
of `start_kernel_validation`: signature check, single-coinbase check,
then accumulation of max timelock, fees and excess. -/
def kernelLoop (i : Nat) (kernel_sum : KernelSum) (coinbase_index : Option Nat)
    (max_kernel_timelock : Nat) :
    List TransactionKernel → Except ValidationError (KernelSum × Option Nat × Nat)
  | [] => .ok (kernel_sum, coinbase_index, max_kernel_timelock)
  | kernel :: rest =>
    if kernel.sig_valid = false then
      .error (.TransactionError .InvalidSignature)
    else if kernel.is_coinbase && coinbase_index.isSome then
      .error (.TransactionError .MoreThanOneCoinbase)
    else
      kernelLoop (i + 1)
        { sum := kernel_sum.sum + kernel.excess, fees := kernel_sum.fees + kernel.fee }
        (if kernel.is_coinbase then some i else coinbase_index)
        (max max_kernel_timelock kernel.lock_height)
        rest

/-- `BlockValidator::start_kernel_validation`, as the sequential
computation the spawned blocking task performs. -/
def start_kernel_validation (v : BlockValidator) (header : BlockHeader)
    (kernels : List TransactionKernel) : Except ValidationError KernelValidationData :=
  let height := header.height
  let total_reward := v.calculate_coinbase_and_fees height kernels
  let total_offset := v.commit_value header.total_kernel_offset total_reward
  match kernelLoop 0 { sum := total_offset, fees := 0 } none 0 kernels with
  | .error e => .error e
  | .ok (kernel_sum, coinbase_index, max_kernel_timelock) =>
    if max_kernel_timelock > height then
      .error .MaturityError
    else
      match coinbase_index with
      | none => .error (.TransactionError .NoCoinbase)
      | some ci => .ok { kernels := kernels, kernel_sum := kernel_sum, coinbase_index := ci }

/-- The loop guard `i > 0 && input <= &inputs[i - 1]` of
`start_input_validation`: the previous element, when there is one, must
be strictly below the current input in the canonical order. -/
def sortGuard (prev : Option TransactionInput) (input : TransactionInput) : Bool :=
  match prev with
  | some p => decide (input.ser ≤ p.ser)
  | none => false

/-- One iteration step of the input loop after the per-input checks: if
no unknown input has been recorded yet, run the script and accumulate
the aggregate input key and commitment sum. -/
def inputLoop (v : BlockValidator) (block_height : Nat) (output_hashes : List Nat) :
    Option TransactionInput → Int → Int → List Nat → List TransactionInput →
    Except ValidationError (Int × Int × List Nat)
  | _, aggregate_input_key, commitment_sum, not_found_inputs, [] =>
    .ok (aggregate_input_key, commitment_sum, not_found_inputs)
  | prev, aggregate_input_key, commitment_sum, not_found_inputs, input :: rest =>
    if sortGuard prev input then
      .error .UnsortedOrDuplicateInput
    else if ¬ (input.maturity ≤ block_height) then
      .error (.TransactionError .InputMaturity)
    else
      match v.check_input_is_utxo input with
      | .error .UnknownInput =>
        let output_hash := input.output_hash
        let nf :=
          if output_hashes.all (fun hash => decide (hash ≠ output_hash)) then
            not_found_inputs ++ [output_hash]
          else
            not_found_inputs
        if nf.isEmpty then
          match input.script_key with
          | none => .error (.TransactionError .InvalidScript)
          | some pk =>
            inputLoop v block_height output_hashes (some input)
              (aggregate_input_key + pk) (commitment_sum + input.commitment) nf rest
        else
          inputLoop v block_height output_hashes (some input)
            aggregate_input_key commitment_sum nf rest
      | .error err => .error err
      | .ok _ =>
        if not_found_inputs.isEmpty then
          match input.script_key with
          | none => .error (.TransactionError .InvalidScript)
          | some pk =>
            inputLoop v block_height output_hashes (some input)
              (aggregate_input_key + pk) (commitment_sum + input.commitment)
              not_found_inputs rest
        else
          inputLoop v block_height output_hashes (some input)
            aggregate_input_key commitment_sum not_found_inputs rest

/-- `BlockValidator::start_input_validation`, as the sequential
computation the spawned blocking task performs. -/
def start_input_validation (v : BlockValidator) (header : BlockHeader)
    (output_hashes : List Nat) (inputs : List TransactionInput) :
    Except ValidationError InputValidationData :=
  match inputLoop v header.height output_hashes none 0 0 [] inputs with
  | .error e => .error e
  | .ok (aggregate_input_key, commitment_sum, not_found_inputs) =>
    if ¬ not_found_inputs.isEmpty then
      .error (.UnknownInputs not_found_inputs)
    else
      .ok { inputs := inputs, aggregate_input_key := aggregate_input_key,
            commitment_sum := commitment_sum }

/-- Per-worker partial result of the sharded output validation: result
buffer, aggregate sender offset, commitment sum, worker-local coinbase
index. -/
structure WorkerResult where
  outputs : List (Nat × TransactionOutput)
  aggregate_sender_offset : Int
  commitment_sum : Int
  coinbase_index : Option Nat
deriving DecidableEq

/-- The worker closure of `start_output_validation`: processes the
`(original_index, output)` pairs it pops from the shared queue, in pop
order. -/
def runWorker (v : BlockValidator) :
    Int → Int → List (Nat × TransactionOutput) → Option Nat →
    List (Nat × TransactionOutput) → Except ValidationError WorkerResult
  | aggregate_sender_offset, commitment_sum, outputs, coinbase_index, [] =>
    .ok { outputs := outputs, aggregate_sender_offset := aggregate_sender_offset,
          commitment_sum := commitment_sum, coinbase_index := coinbase_index }
  | aggregate_sender_offset, commitment_sum, outputs, coinbase_index, (orig_idx, output) :: rest =>
    if output.is_coinbase && coinbase_index.isSome then
      .error (.TransactionError .MoreThanOneCoinbase)
    else
      let coinbase_index := if output.is_coinbase then some orig_idx else coinbase_index
      let aggregate_sender_offset :=
        if output.is_coinbase then aggregate_sender_offset
        else aggregate_sender_offset + output.sender_offset_public_key
      if output.metadata_sig_valid = false then
        .error (.TransactionError .InvalidSignature)
      else if v.bypass_range_proof_verification = false ∧ output.range_proof_valid = false then
        .error (.TransactionError .InvalidRangeProof)
      else
        match v.check_not_duplicate_txo output with
        | .error e => .error e
        | .ok _ =>
          runWorker v aggregate_sender_offset (commitment_sum + output.commitment)
            (outputs ++ [(orig_idx, output)]) coinbase_index rest

/-- The merge loop of `start_output_validation`: consumes the worker
results in completion order, summing curve points and enforcing the
global single-coinbase rule. -/
def mergeWorkers :
    Int → Int → List (Nat × TransactionOutput) → Option Nat →
    List (Except ValidationError WorkerResult) →
    Except ValidationError (Int × Int × List (Nat × TransactionOutput) × Option Nat)
  | aggregate_offset_pubkey, output_commitment_sum, valid_outputs, coinbase_index, [] =>
    .ok (aggregate_offset_pubkey, output_commitment_sum, valid_outputs, coinbase_index)
  | aggregate_offset_pubkey, output_commitment_sum, valid_outputs, coinbase_index, r :: rest =>
    match r with
    | .error e => .error e
    | .ok w =>
      if w.coinbase_index.isSome && coinbase_index.isSome then
        .error (.TransactionError .MoreThanOneCoinbase)
      else
        mergeWorkers (aggregate_offset_pubkey + w.aggregate_sender_offset)
          (output_commitment_sum + w.commitment_sum)
          (valid_outputs ++ w.outputs)
          (if w.coinbase_index.isSome then w.coinbase_index else coinbase_index)
          rest

/-- Insertion of the merge-phase stable sort `sort_by(|(a,_),(b,_)| a.cmp(b))`. -/
def insertByKey {α : Type} (x : Nat × α) : List (Nat × α) → List (Nat × α)
  | [] => [x]
  | y :: ys => if x.1 ≤ y.1 then x :: y :: ys else y :: insertByKey x ys

/-- The merge-phase stable sort by original index. -/
def sortByKey {α : Type} : List (Nat × α) → List (Nat × α)
  | [] => []
  | x :: xs => insertByKey x (sortByKey xs)

/-- `outputs.into_iter().enumerate()`, with an explicit starting index. -/
def enumFrom {α : Type} : Nat → List α → List (Nat × α)
  | _, [] => []
  | i, a :: rest => (i, a) :: enumFrom (i + 1) rest

/-- Concatenation of the per-worker pop sequences. -/
def concatShards {α : Type} : List (List α) → List α
  | [] => []
  | s :: rest => s ++ concatShards rest

/-- A possible behaviour of the shared work queue and the unordered
join: one pop sequence per spawned worker, listed in the order the
orchestrator observes their completions.  The queue hands every
enumerated output to exactly one worker, so the concatenation of the
pop sequences is a permutation of the enumerated output list, and
`min(concurrency, num_outputs)` workers are spawned. -/
abbrev Sharded (v : BlockValidator) (outputs : List TransactionOutput)
    (shards : List (List (Nat × TransactionOutput))) : Prop :=
  shards.length = min v.concurrency outputs.length ∧
  List.Perm (concatShards shards) (enumFrom 0 outputs)

/-- `BlockValidator::start_output_validation`, parametrised by the
sharding behaviour: run each worker on its pop sequence, merge in
completion order, enforce the coinbase rule, and restore the original
order by sorting on the original index before dropping it. -/
def start_output_validation (v : BlockValidator)
    (shards : List (List (Nat × TransactionOutput))) :
    Except ValidationError OutputValidationData :=
  match mergeWorkers 0 0 [] none (shards.map (runWorker v 0 0 [] none)) with
  | .error e => .error e
  | .ok (_, _, _, none) => .error (.TransactionError .NoCoinbase)
  | .ok (aggregate_offset_pubkey, output_commitment_sum, valid_outputs, some ci) =>
    .ok { outputs := (sortByKey valid_outputs).map Prod.snd,
          commitment_sum := output_commitment_sum,
          aggregate_offset_pubkey := aggregate_offset_pubkey,
          coinbase_index := ci }

/-- `BlockValidator::validate_block_body`.  The kernel and input tasks
are spawned first in the source; their results and the output result
are awaited in the order outputs, inputs, kernels, which is the error
surfacing order modelled by the match nesting.  The output-order check
runs on the orchestrator before the output workers are started. -/
def validate_block_body (v : BlockValidator)
    (shards : List (List (Nat × TransactionOutput))) (block : Block) :
    Except ValidationError Block :=
  let valid_header := block.header
  let inputs := block.body.inputs
  let outputs := block.body.outputs
  let kernels := block.body.kernels
  if ¬ is_all_unique_and_sorted (outputs.map TransactionOutput.ser) then
    .error .UnsortedOrDuplicateOutput
  else
    match start_output_validation v shards with
    | .error e => .error e
    | .ok outputs_result =>
      match start_input_validation v valid_header (outputs.map TransactionOutput.hash) inputs with
      | .error e => .error e
      | .ok inputs_result =>
        match start_kernel_validation v valid_header kernels with
        | .error e => .error e
        | .ok kernels_result =>
          match v.check_coinbase_reward valid_header kernels_result.kernel_sum.fees
              (kernels_result.coinbase.getD defaultKernel)
              (outputs_result.coinbase.getD defaultOutput) with
          | .error e => .error e
          | .ok _ =>
            match v.check_script_offset valid_header outputs_result.aggregate_offset_pubkey
                inputs_result.aggregate_input_key with
            | .error e => .error e
            | .ok _ =>
              match v.check_kernel_sum kernels_result.kernel_sum
                  outputs_result.commitment_sum inputs_result.commitment_sum with
              | .error e => .error e
              | .ok _ =>
                .ok { header := valid_header,
                      body := { inputs := inputs_result.inputs,
                                outputs := outputs_result.outputs,
                                kernels := kernels_result.kernels } }

/-- The spawn events of `validate_block_body`, in source order: the
kernel task and the input task are spawned before the output-order
check; the output workers only after it. -/
inductive SpawnEvent where
  | kernelTask
  | inputTask
  | outputWorkers
deriving DecidableEq

/-- `validate_block_body` instrumented with the spawn order of its
sub-tasks.  The source spawns the kernel task, then the input task, then
performs the output-order check (returning early on failure), and only
then spawns the output workers; the computed value is exactly that of
`validate_block_body`. -/
def validate_block_body_traced (v : BlockValidator)
    (shards : List (List (Nat × TransactionOutput))) (block : Block) :
    Except ValidationError Block × List SpawnEvent :=
  let outputs := block.body.outputs
  if ¬ is_all_unique_and_sorted (outputs.map TransactionOutput.ser) then
    (.error .UnsortedOrDuplicateOutput, [SpawnEvent.kernelTask, SpawnEvent.inputTask])
  else
    (validate_block_body v shards block,
      [SpawnEvent.kernelTask, SpawnEvent.inputTask, SpawnEvent.outputWorkers])

/-- `BlockSyncBodyValidation::validate_body` for `BlockValidator`:
weight check, body validation, MMR-root recomputation and comparison. -/
def validate_body (v : BlockValidator)
    (shards : List (List (Nat × TransactionOutput))) (block : Block) :
    Except ValidationError Block :=
  match v.check_block_weight block with
  | .error e => .error e
  | .ok _ =>
    match validate_block_body v shards block with
    | .error e => .error e
    | .ok b =>
      match v.check_mmr_roots_stage b with
      | .error e => .error e
      | .ok _ => .ok b

/-- Sum of the kernel excess commitments. -/
def kernelExcessSum (ks : List TransactionKernel) : Int :=
  (ks.map TransactionKernel.excess).sum

/-- Sum of the kernel fees. -/
def kernelFeeSum (ks : List TransactionKernel) : Nat :=
  (ks.map TransactionKernel.fee).sum

/-- Index (relative to a starting offset) of the first coinbase kernel. -/
def cbIdxFrom (i : Nat) : List TransactionKernel → Option Nat
  | [] => none
  | k :: ks => if k.is_coinbase then some i else cbIdxFrom (i + 1) ks

/-- Number of already-recorded coinbases carried by an optional index. -/
def cbWeight (cb : Option Nat) : Nat :=
  if cb.isSome then 1 else 0

/-- The initial running sum of the kernel validator:
`commit(total_kernel_offset, coinbase_and_fees(height, kernels))`. -/
def kernelOffset (v : BlockValidator) (header : BlockHeader)
    (kernels : List TransactionKernel) : Int :=
  v.commit_value header.total_kernel_offset
    (v.calculate_coinbase_and_fees header.height kernels)

/-- An input is "missing" when it spends an output that is neither in the
database snapshot (`check_input_is_utxo` says `UnknownInput`) nor among
the hashes of the block's own outputs. -/
def inputMissing (v : BlockValidator) (output_hashes : List Nat)
    (input : TransactionInput) : Bool :=
  decide (v.check_input_is_utxo input = .error .UnknownInput) &&
  output_hashes.all (fun hash => decide (hash ≠ input.output_hash))

/-- The complete list of missing output hashes, in input order. -/
def notFoundList (v : BlockValidator) (output_hashes : List Nat)
    (inputs : List TransactionInput) : List Nat :=
  inputs.filterMap fun input =>
    if inputMissing v output_hashes input then some input.output_hash else none

/-- Sum of the script public keys of a list of inputs. -/
def inputKeySum (inputs : List TransactionInput) : Int :=
  (inputs.map (fun i => i.script_key.getD 0)).sum

/-- Sum of the input commitments. -/
def inputCommitSum (inputs : List TransactionInput) : Int :=
  (inputs.map TransactionInput.commitment).sum

/-- The UTXO lookup of an input neither propagates a foreign error nor
leaves the input missing: it is found in the snapshot, or it is unknown
to the snapshot but spends one of the block's own outputs. -/
abbrev utxoResolved (v : BlockValidator) (output_hashes : List Nat)
    (input : TransactionInput) : Prop :=
  v.check_input_is_utxo input = .ok () ∨
    (v.check_input_is_utxo input = .error .UnknownInput ∧
      output_hashes.all (fun hash => decide (hash ≠ input.output_hash)) = false)

/-- The UTXO lookup returns either success or `UnknownInput` (no other
error is propagated). -/
abbrev utxoBenign (v : BlockValidator) (input : TransactionInput) : Prop :=
  v.check_input_is_utxo input = .ok () ∨
    v.check_input_is_utxo input = .error .UnknownInput

/-- The per-output checks of the worker loop all pass: metadata
signature, range proof (unless bypassed), duplicate-TXO. -/
abbrev outputChecksPass (v : BlockValidator) (o : TransactionOutput) : Prop :=
  o.metadata_sig_valid = true ∧
  (v.bypass_range_proof_verification = true ∨ o.range_proof_valid = true) ∧
  v.check_not_duplicate_txo o = .ok ()

/-- Sender-offset sum over enumerated pairs, skipping coinbase outputs. -/
def offSum (items : List (Nat × TransactionOutput)) : Int :=
  (items.map (fun p => if p.2.is_coinbase then 0 else p.2.sender_offset_public_key)).sum

/-- Commitment sum over enumerated pairs. -/
def commSumP (items : List (Nat × TransactionOutput)) : Int :=
  (items.map (fun p => p.2.commitment)).sum

/-- Number of coinbase outputs among enumerated pairs. -/
def countCb (items : List (Nat × TransactionOutput)) : Nat :=
  items.countP (fun p => p.2.is_coinbase)

/-- Original index recorded for the first coinbase output popped. -/
def firstCb (items : List (Nat × TransactionOutput)) : Option Nat :=
  (items.find? (fun p => p.2.is_coinbase)).map Prod.fst

/-- Sender-offset sum of a list of outputs, skipping coinbase outputs. -/
def outputOffsetSum (outputs : List TransactionOutput) : Int :=
  (outputs.map (fun o => if o.is_coinbase then 0 else o.sender_offset_public_key)).sum

/-- Commitment sum of a list of outputs. -/
def outputCommitSum (outputs : List TransactionOutput) : Int :=
  (outputs.map TransactionOutput.commitment).sum

/-- Whether an Except value is a success. -/
def isOkE {ε α : Type} : Except ε α → Bool
  | .ok _ => true
  | .error _ => false

/-- A concrete validator configuration for concrete evaluations: constant
consensus oracles, a UTXO set holding exactly the even output hashes, no
duplicate TXOs, and all final checks passing. -/
def wValidator : BlockValidator where
  concurrency := 2
  bypass_range_proof_verification := false
  calculate_coinbase_and_fees := fun _ _ => 50
  commit_value := fun k v => k + v
  check_input_is_utxo := fun i =>
    if i.output_hash % 2 = 0 then .ok () else .error .UnknownInput
  check_not_duplicate_txo := fun _ => .ok ()
  check_block_weight := fun _ => .ok ()
  check_coinbase_reward := fun _ _ _ _ => .ok ()
  check_script_offset := fun _ _ _ => .ok ()
  check_kernel_sum := fun _ _ _ => .ok ()
  check_mmr_roots_stage := fun _ => .ok ()

/-- Concrete header at height 100 with total kernel offset 5. -/
def wHeader : BlockHeader := { height := 100, total_kernel_offset := 5 }

/-- A coinbase kernel with a valid signature. -/
def wCbK : TransactionKernel :=
  { ser := 1, is_coinbase := true, fee := 1, lock_height := 0, excess := 3, sig_valid := true }

/-- A non-coinbase kernel with a valid signature. -/
def wK2 : TransactionKernel :=
  { ser := 2, is_coinbase := false, fee := 2, lock_height := 0, excess := 4, sig_valid := true }

/-- A kernel whose Schnorr signature fails to verify. -/
def wBadK : TransactionKernel :=
  { ser := 3, is_coinbase := false, fee := 0, lock_height := 0, excess := 0, sig_valid := false }

/-- A valid coinbase output. -/
def wOut : TransactionOutput :=
  { ser := 1, hash := 2, is_coinbase := true, commitment := 5,
    sender_offset_public_key := 7, metadata_sig_valid := true, range_proof_valid := true }

/-- A valid non-coinbase output. -/
def wOutB : TransactionOutput :=
  { ser := 2, hash := 4, is_coinbase := false, commitment := 6,
    sender_offset_public_key := 8, metadata_sig_valid := true, range_proof_valid := true }

/-- An input spending an output present in the UTXO set. -/
def wIn1 : TransactionInput :=
  { ser := 1, output_hash := 2, maturity := 0, commitment := 11, script_key := some 13 }

/-- An input spending an output absent from the UTXO set and from the block. -/
def wIn2 : TransactionInput :=
  { ser := 2, output_hash := 3, maturity := 0, commitment := 12, script_key := some 14 }

/-- A second input spending an absent output. -/
def wIn3 : TransactionInput :=
  { ser := 3, output_hash := 5, maturity := 0, commitment := 15, script_key := some 16 }

/-- The one-worker sharding of the single output wOut. -/
def wShards : List (List (Nat × TransactionOutput)) := [[(0, wOut)]]

/-- A minimal valid block: one coinbase output, one coinbase kernel. -/
def wBlock : Block :=
  { header := wHeader, body := { inputs := [], outputs := [wOut], kernels := [wCbK] } }

/-- A valid block with two kernels (coinbase first in canonical order). -/
def wBlock2 : Block :=
  { header := wHeader, body := { inputs := [], outputs := [wOut], kernels := [wCbK, wK2] } }

/-- wBlock2 with its kernel sequence swapped out of canonical order. -/
def wBlock2s : Block :=
  { header := wHeader, body := { inputs := [], outputs := [wOut], kernels := [wK2, wCbK] } }

/-- A block whose outputs are not in canonical order. -/
def uBlock : Block :=
  { header := wHeader, body := { inputs := [], outputs := [wOutB, wOut], kernels := [wCbK] } }

/-- A valid block with two outputs and two kernels. -/
def wBlockB : Block :=
  { header := wHeader, body := { inputs := [], outputs := [wOut, wOutB], kernels := [wCbK, wK2] } }

/-- A sorted single-output block with no coinbase output and a kernel
whose signature fails: both output and kernel stages would fail. -/
def wBlkP1 : Block :=
  { header := wHeader, body := { inputs := [], outputs := [wOutB], kernels := [wBadK] } }

/-- A block with a missing input and a bad kernel: both input and kernel
stages would fail, outputs succeed. -/
def wBlkP2 : Block :=
  { header := wHeader, body := { inputs := [wIn2], outputs := [wOut], kernels := [wBadK] } }

/-- A block where only the kernel stage fails. -/
def wBlkP3 : Block :=
  { header := wHeader, body := { inputs := [], outputs := [wOut], kernels := [wBadK] } }

/-- A block with no outputs (and one kernel). -/
def wBlkE : Block :=
  { header := wHeader, body := { inputs := [], outputs := [], kernels := [wCbK] } }

/-! ### Theorems -/

theorem cbWeight_none : cbWeight none = 0 := rfl

theorem cbWeight_some (i : Nat) : cbWeight (some i) = 1 := rfl

theorem kernelExcessSum_cons (k : TransactionKernel) (ks : List TransactionKernel) :
    kernelExcessSum (k :: ks) = k.excess + kernelExcessSum ks := by
  simp [kernelExcessSum]

theorem kernelFeeSum_cons (k : TransactionKernel) (ks : List TransactionKernel) :
    kernelFeeSum (k :: ks) = k.fee + kernelFeeSum ks := by
  simp [kernelFeeSum]

theorem cbIdxFrom_eq_none (i : Nat) (ks : List TransactionKernel)
    (h : ks.countP TransactionKernel.is_coinbase = 0) : cbIdxFrom i ks = none := by
  induction ks generalizing i with
  | nil => rfl
  | cons k ks ih =>
    rw [List.countP_cons] at h
    cases hk : k.is_coinbase with
    | true => rw [hk, if_pos rfl] at h; omega
    | false =>
      rw [hk, if_neg (by simp)] at h
      simp only [cbIdxFrom, hk, Bool.false_eq_true, if_false]
      exact ih (i + 1) (by omega)

theorem cbIdxFrom_isSome (i : Nat) (ks : List TransactionKernel)
    (h : 0 < ks.countP TransactionKernel.is_coinbase) : (cbIdxFrom i ks).isSome := by
  induction ks generalizing i with
  | nil => simp [List.countP_nil] at h
  | cons k ks ih =>
    rw [List.countP_cons] at h
    cases hk : k.is_coinbase with
    | true => simp [cbIdxFrom, hk]
    | false =>
      rw [hk, if_neg (by simp)] at h
      simp only [cbIdxFrom, hk, Bool.false_eq_true, if_false]
      exact ih (i + 1) (by omega)

theorem cbIdxFrom_spec (i j : Nat) (ks : List TransactionKernel)
    (h : cbIdxFrom i ks = some j) :
    ∃ k, i ≤ j ∧ ks[j - i]? = some k ∧ k.is_coinbase = true := by
  induction ks generalizing i with
  | nil => simp [cbIdxFrom] at h
  | cons a ks ih =>
    cases ha : a.is_coinbase with
    | true =>
      rw [cbIdxFrom, if_pos ha] at h
      obtain rfl : i = j := by simpa using h
      exact ⟨a, Nat.le_refl _, by simp, ha⟩
    | false =>
      rw [cbIdxFrom, if_neg (by simp [ha])] at h
      obtain ⟨k, hij, hget, hk⟩ := ih (i + 1) h
      refine ⟨k, by omega, ?_, hk⟩
      have hji : j - i = (j - (i + 1)) + 1 := by omega
      rw [hji]
      simpa using hget

theorem kernelLoop_ok (ks : List TransactionKernel) (i : Nat) (s : KernelSum)
    (cb : Option Nat) (m : Nat)
    (hsig : ∀ k ∈ ks, k.sig_valid = true)
    (hcb : ks.countP TransactionKernel.is_coinbase + cbWeight cb ≤ 1) :
    kernelLoop i s cb m ks =
      .ok ({ sum := s.sum + kernelExcessSum ks, fees := s.fees + kernelFeeSum ks },
           cb.or (cbIdxFrom i ks),
           ks.foldl (fun a k => max a k.lock_height) m) := by
  induction ks generalizing i s cb m with
  | nil => simp [kernelLoop, kernelExcessSum, kernelFeeSum, cbIdxFrom]
  | cons k ks ih =>
    have hk := hsig k (List.mem_cons_self k ks)
    have hks : ∀ x ∈ ks, x.sig_valid = true := fun x hx => hsig x (List.mem_cons_of_mem _ hx)
    rw [List.countP_cons] at hcb
    cases hkc : k.is_coinbase with
    | true =>
      rw [hkc, if_pos rfl] at hcb
      have hcbnone : cb = none := by
        cases cb with
        | none => rfl
        | some x => rw [cbWeight_some] at hcb; omega
      subst hcbnone
      rw [cbWeight_none] at hcb
      have hrec := ih (i + 1) { sum := s.sum + k.excess, fees := s.fees + k.fee }
        (some i) (max m k.lock_height) hks (by rw [cbWeight_some]; omega)
      simp [kernelLoop, hk, hkc, hrec, kernelExcessSum_cons, kernelFeeSum_cons, cbIdxFrom,
        add_assoc]
    | false =>
      rw [hkc, if_neg (by simp)] at hcb
      have hrec := ih (i + 1) { sum := s.sum + k.excess, fees := s.fees + k.fee }
        cb (max m k.lock_height) hks (by omega)
      simp [kernelLoop, hk, hkc, hrec, kernelExcessSum_cons, kernelFeeSum_cons, cbIdxFrom,
        add_assoc]

theorem kernelLoop_append (ks₁ rest : List TransactionKernel) (i : Nat) (s : KernelSum)
    (cb : Option Nat) (m : Nat)
    (hsig : ∀ k ∈ ks₁, k.sig_valid = true)
    (hcb : ks₁.countP TransactionKernel.is_coinbase + cbWeight cb ≤ 1) :
    kernelLoop i s cb m (ks₁ ++ rest) =
      kernelLoop (i + ks₁.length)
        { sum := s.sum + kernelExcessSum ks₁, fees := s.fees + kernelFeeSum ks₁ }
        (cb.or (cbIdxFrom i ks₁))
        (ks₁.foldl (fun a k => max a k.lock_height) m) rest := by
  induction ks₁ generalizing i s cb m with
  | nil => simp [kernelExcessSum, kernelFeeSum, cbIdxFrom]
  | cons k ks ih =>
    have hk := hsig k (List.mem_cons_self k ks)
    have hks : ∀ x ∈ ks, x.sig_valid = true := fun x hx => hsig x (List.mem_cons_of_mem _ hx)
    rw [List.countP_cons] at hcb
    rcases Bool.eq_false_or_eq_true (k.is_coinbase) with hkc | hkc
    · rw [hkc, if_pos rfl] at hcb
      have hcbnone : cb = none := by
        cases cb with
        | none => rfl
        | some x => rw [cbWeight_some] at hcb; omega
      subst hcbnone
      rw [cbWeight_none] at hcb
      have hrec := ih (i + 1) { sum := s.sum + k.excess, fees := s.fees + k.fee }
        (some i) (max m k.lock_height) hks (by rw [cbWeight_some]; omega)
      rw [List.cons_append]
      simp only [kernelLoop]
      rw [if_neg (by simp [hk]), if_neg (by simp), if_pos hkc, hrec]
      simp only [kernelExcessSum_cons, kernelFeeSum_cons, List.length_cons,
        List.foldl_cons]
      rw [show cbIdxFrom i (k :: ks) = some i by simp [cbIdxFrom, hkc]]
      rw [show ((some i).or (cbIdxFrom (i + 1) ks)) = some i from rfl,
        show (Option.none.or (some i)) = some i from rfl]
      rw [show i + 1 + ks.length = i + (ks.length + 1) by omega,
        add_assoc s.sum, Nat.add_assoc s.fees]
    · rw [hkc, if_neg (by simp)] at hcb
      have hrec := ih (i + 1) { sum := s.sum + k.excess, fees := s.fees + k.fee }
        cb (max m k.lock_height) hks (by omega)
      rw [List.cons_append]
      simp only [kernelLoop]
      rw [if_neg (by simp [hk]), if_neg (by simp [hkc]), if_neg (by simp [hkc]), hrec]
      simp only [kernelExcessSum_cons, kernelFeeSum_cons, List.length_cons,
        List.foldl_cons]
      rw [show cbIdxFrom i (k :: ks) = cbIdxFrom (i + 1) ks by
        simp [cbIdxFrom, hkc]]
      rw [show i + 1 + ks.length = i + (ks.length + 1) by omega,
        add_assoc s.sum, Nat.add_assoc s.fees]

theorem kernelLoop_err_mtoc (ks : List TransactionKernel) (i : Nat) (s : KernelSum)
    (cb : Option Nat) (m : Nat)
    (hsig : ∀ k ∈ ks, k.sig_valid = true)
    (hcb : 2 ≤ ks.countP TransactionKernel.is_coinbase + cbWeight cb) :
    kernelLoop i s cb m ks = .error (.TransactionError .MoreThanOneCoinbase) := by
  induction ks generalizing i s cb m with
  | nil =>
    exfalso
    have h1 : cbWeight cb ≤ 1 := by
      cases cb <;> simp [cbWeight]
    rw [List.countP_nil] at hcb
    omega
  | cons k ks ih =>
    have hk := hsig k (List.mem_cons_self k ks)
    have hks : ∀ x ∈ ks, x.sig_valid = true := fun x hx => hsig x (List.mem_cons_of_mem _ hx)
    rw [List.countP_cons] at hcb
    rcases Bool.eq_false_or_eq_true (k.is_coinbase) with hkc | hkc
    · rw [hkc, if_pos rfl] at hcb
      cases hcbs : cb with
      | some x =>
        simp [kernelLoop, hk, hkc]
      | none =>
        subst hcbs
        rw [cbWeight_none] at hcb
        simp only [kernelLoop]
        rw [if_neg (by simp [hk]), if_neg (by simp), if_pos hkc]
        exact ih (i + 1) _ (some i) _ hks (by rw [cbWeight_some]; omega)
    · rw [hkc, if_neg (by simp)] at hcb
      simp only [kernelLoop]
      rw [if_neg (by simp [hk]), if_neg (by simp [hkc]), if_neg (by simp [hkc])]
      exact ih (i + 1) _ cb _ hks (by omega)

theorem kernelLoop_ok_inv (ks : List TransactionKernel) (i : Nat) (s : KernelSum)
    (cb : Option Nat) (m : Nat) (r : KernelSum × Option Nat × Nat)
    (h : kernelLoop i s cb m ks = .ok r) :
    (∀ k ∈ ks, k.sig_valid = true) ∧
    ks.countP TransactionKernel.is_coinbase + cbWeight cb ≤ 1 := by
  induction ks generalizing i s cb m with
  | nil =>
    refine ⟨by simp, ?_⟩
    rw [List.countP_nil]
    cases cb <;> simp [cbWeight]
  | cons k ks ih =>
    by_cases hk : k.sig_valid = true
    · by_cases hkcb : (k.is_coinbase && cb.isSome) = true
      · rw [kernelLoop, if_neg (by simp [hk]), if_pos hkcb] at h
        cases h
      · rw [kernelLoop, if_neg (by simp [hk]), if_neg hkcb] at h
        obtain ⟨hsig, hcb⟩ := ih (i + 1) _ _ _ h
        refine ⟨fun x hx => ?_, ?_⟩
        · rcases List.mem_cons.mp hx with rfl | hx
          · exact hk
          · exact hsig x hx
        · rcases Bool.eq_false_or_eq_true (k.is_coinbase) with hkc | hkc
          · have hcbnone : cb = none := by
              cases cb with
              | none => rfl
              | some x => rw [hkc] at hkcb; simp at hkcb
            subst hcbnone
            rw [hkc, if_pos rfl, cbWeight_some] at hcb
            rw [List.countP_cons, hkc, if_pos rfl, cbWeight_none]
            omega
          · rw [hkc, if_neg (by simp)] at hcb
            rw [List.countP_cons, hkc, if_neg (by simp)]
            omega
    · rw [kernelLoop, if_pos (by simpa using hk)] at h
      cases h

theorem foldl_max_le_iff (ks : List TransactionKernel) (m h : Nat) :
    ks.foldl (fun a k => max a k.lock_height) m ≤ h ↔
      m ≤ h ∧ ∀ k ∈ ks, k.lock_height ≤ h := by
  induction ks generalizing m with
  | nil => simp
  | cons k ks ih =>
    rw [List.foldl_cons, ih]
    constructor
    · rintro ⟨h1, h2⟩
      rw [max_le_iff] at h1
      refine ⟨h1.1, fun x hx => ?_⟩
      rcases List.mem_cons.mp hx with rfl | hx
      · exact h1.2
      · exact h2 x hx
    · rintro ⟨h1, h2⟩
      refine ⟨max_le_iff.mpr ⟨h1, h2 k (List.mem_cons_self k ks)⟩, fun x hx => ?_⟩
      exact h2 x (List.mem_cons_of_mem _ hx)

theorem start_kernel_validation_ok (v : BlockValidator) (header : BlockHeader)
    (kernels : List TransactionKernel) (ci : Nat)
    (hsig : ∀ k ∈ kernels, k.sig_valid = true)
    (hcb : kernels.countP TransactionKernel.is_coinbase = 1)
    (hlock : ∀ k ∈ kernels, k.lock_height ≤ header.height)
    (hci : cbIdxFrom 0 kernels = some ci) :
    start_kernel_validation v header kernels =
      .ok { kernels := kernels,
            kernel_sum := { sum := kernelOffset v header kernels + kernelExcessSum kernels,
                            fees := kernelFeeSum kernels },
            coinbase_index := ci } := by
  have hfold : kernels.foldl (fun a k => max a k.lock_height) 0 ≤ header.height :=
    (foldl_max_le_iff kernels 0 header.height).mpr ⟨Nat.zero_le _, hlock⟩
  simp only [start_kernel_validation]
  rw [kernelLoop_ok kernels 0 _ none 0 hsig (by rw [cbWeight_none]; omega)]
  simp only [Option.none_or, hci]
  rw [if_neg (by omega)]
  simp [kernelOffset]

theorem start_kernel_validation_err_sig (v : BlockValidator) (header : BlockHeader)
    (ks₁ : List TransactionKernel) (k : TransactionKernel) (ks₂ : List TransactionKernel)
    (hsig : ∀ x ∈ ks₁, x.sig_valid = true)
    (hcb : ks₁.countP TransactionKernel.is_coinbase ≤ 1)
    (hk : k.sig_valid = false) :
    start_kernel_validation v header (ks₁ ++ k :: ks₂) =
      .error (.TransactionError .InvalidSignature) := by
  simp only [start_kernel_validation]
  rw [kernelLoop_append ks₁ (k :: ks₂) 0 _ none 0 hsig (by rw [cbWeight_none]; omega)]
  simp only [kernelLoop]
  rw [if_pos hk]

theorem start_kernel_validation_err_mtoc (v : BlockValidator) (header : BlockHeader)
    (kernels : List TransactionKernel)
    (hsig : ∀ k ∈ kernels, k.sig_valid = true)
    (hcb : 2 ≤ kernels.countP TransactionKernel.is_coinbase) :
    start_kernel_validation v header kernels =
      .error (.TransactionError .MoreThanOneCoinbase) := by
  simp only [start_kernel_validation]
  rw [kernelLoop_err_mtoc kernels 0 _ none 0 hsig (by rw [cbWeight_none]; omega)]

theorem start_kernel_validation_err_maturity (v : BlockValidator) (header : BlockHeader)
    (kernels : List TransactionKernel)
    (hsig : ∀ k ∈ kernels, k.sig_valid = true)
    (hcb : kernels.countP TransactionKernel.is_coinbase ≤ 1)
    (hlock : ∃ k ∈ kernels, header.height < k.lock_height) :
    start_kernel_validation v header kernels = .error .MaturityError := by
  have hfold : ¬ kernels.foldl (fun a k => max a k.lock_height) 0 ≤ header.height := by
    rw [foldl_max_le_iff]
    rintro ⟨-, hall⟩
    obtain ⟨k, hkmem, hkgt⟩ := hlock
    exact absurd (hall k hkmem) (by omega)
  simp only [start_kernel_validation]
  rw [kernelLoop_ok kernels 0 _ none 0 hsig (by rw [cbWeight_none]; omega)]
  simp only [Option.none_or, gt_iff_lt]
  rw [if_pos (by omega)]

theorem start_kernel_validation_err_nocb (v : BlockValidator) (header : BlockHeader)
    (kernels : List TransactionKernel)
    (hsig : ∀ k ∈ kernels, k.sig_valid = true)
    (hcb : kernels.countP TransactionKernel.is_coinbase = 0)
    (hlock : ∀ k ∈ kernels, k.lock_height ≤ header.height) :
    start_kernel_validation v header kernels = .error (.TransactionError .NoCoinbase) := by
  have hfold : kernels.foldl (fun a k => max a k.lock_height) 0 ≤ header.height :=
    (foldl_max_le_iff kernels 0 header.height).mpr ⟨Nat.zero_le _, hlock⟩
  simp only [start_kernel_validation]
  rw [kernelLoop_ok kernels 0 _ none 0 hsig (by rw [cbWeight_none]; omega)]
  simp only [Option.none_or, cbIdxFrom_eq_none 0 kernels hcb, gt_iff_lt]
  rw [if_neg (by omega)]

theorem start_kernel_validation_ok_inv (v : BlockValidator) (header : BlockHeader)
    (kernels : List TransactionKernel) (d : KernelValidationData)
    (h : start_kernel_validation v header kernels = .ok d) :
    (∀ k ∈ kernels, k.sig_valid = true) ∧
    kernels.countP TransactionKernel.is_coinbase = 1 ∧
    (∀ k ∈ kernels, k.lock_height ≤ header.height) ∧
    cbIdxFrom 0 kernels = some d.coinbase_index ∧
    d.kernels = kernels ∧
    d.kernel_sum = { sum := kernelOffset v header kernels + kernelExcessSum kernels,
                     fees := kernelFeeSum kernels } := by
  simp only [start_kernel_validation] at h
  split at h
  next e heq => cases h
  next ksum cbIdx maxtl heq =>
    obtain ⟨hsig, hcb0⟩ := kernelLoop_ok_inv _ _ _ _ _ _ heq
    rw [cbWeight_none] at hcb0
    rw [kernelLoop_ok kernels 0 _ none 0 hsig (by rw [cbWeight_none]; omega)] at heq
    simp only [Except.ok.injEq, Prod.mk.injEq, Option.none_or] at heq
    obtain ⟨hsum, hcbIdx, hmax⟩ := heq
    split at h
    next hmat => cases h
    next hmat =>
      split at h
      next => cases h
      next x =>
        simp only [Except.ok.injEq] at h
        subst h
        have hcbfrom : cbIdxFrom 0 kernels = some x := hcbIdx
        have hcount : kernels.countP TransactionKernel.is_coinbase = 1 := by
          rcases Nat.eq_zero_or_pos (kernels.countP TransactionKernel.is_coinbase) with h0 | h0
          · rw [cbIdxFrom_eq_none 0 kernels h0] at hcbfrom
            cases hcbfrom
          · omega
        have hlocks : ∀ k ∈ kernels, k.lock_height ≤ header.height := by
          have hfl : kernels.foldl (fun a k => max a k.lock_height) 0 ≤ header.height := by
            rw [hmax]; omega
          exact ((foldl_max_le_iff kernels 0 header.height).mp hfl).2
        refine ⟨hsig, hcount, hlocks, hcbfrom, rfl, ?_⟩
        rw [← hsum]
        simp [kernelOffset]

theorem notFoundList_cons (v : BlockValidator) (output_hashes : List Nat)
    (input : TransactionInput) (inputs : List TransactionInput) :
    notFoundList v output_hashes (input :: inputs) =
      (if inputMissing v output_hashes input then [input.output_hash] else []) ++
        notFoundList v output_hashes inputs := by
  simp only [notFoundList, List.filterMap_cons]
  split <;> rename_i hsp
  · rw [if_neg (by simp_all), List.nil_append]
  · rw [if_pos (by simp_all)]
    simp_all

theorem inputLoop_nf_mono (v : BlockValidator) (height : Nat) (hashes : List Nat)
    (inputs : List TransactionInput) (prev : Option TransactionInput)
    (agg csum : Int) (nf : List Nat) (r : Int × Int × List Nat)
    (h : inputLoop v height hashes prev agg csum nf inputs = .ok r) :
    ∃ t, r.2.2 = nf ++ t := by
  induction inputs generalizing prev agg csum nf with
  | nil =>
    simp only [inputLoop, Except.ok.injEq] at h
    exact ⟨[], by rw [← h]; simp⟩
  | cons input rest ih =>
    rw [inputLoop.eq_def] at h
    dsimp only [] at h
    repeat' split at h
    all_goals first
      | cases h
      | exact (by
          obtain ⟨t, ht⟩ := ih _ _ _ _ h
          exact ⟨t, ht⟩)
      | exact (by
          obtain ⟨t, ht⟩ := ih _ _ _ _ h
          exact ⟨[input.output_hash] ++ t, by rw [ht, List.append_assoc]⟩)

theorem sortGuard_none (input : TransactionInput) : sortGuard none input = false := rfl

theorem sortGuard_false_of_chain (prev : Option TransactionInput) (input : TransactionInput)
    (rest : List TransactionInput)
    (hsort : List.Chain' (fun a b => a.ser < b.ser) (prev.toList ++ input :: rest)) :
    sortGuard prev input = false := by
  cases prev with
  | none => rfl
  | some p =>
    have hlt := (List.chain'_cons.mp hsort).1
    simp only [sortGuard, decide_eq_false_iff_not]
    omega

theorem chain_tail (prev : Option TransactionInput) (input : TransactionInput)
    (rest : List TransactionInput)
    (hsort : List.Chain' (fun a b => a.ser < b.ser) (prev.toList ++ input :: rest)) :
    List.Chain' (fun a b : TransactionInput => a.ser < b.ser) ((some input).toList ++ rest) := by
  cases prev with
  | none => exact hsort
  | some p => exact (List.chain'_cons.mp hsort).2

theorem inputLoop_absorb (v : BlockValidator) (height : Nat) (hashes : List Nat)
    (inputs : List TransactionInput) (prev : Option TransactionInput)
    (agg csum : Int) (nf : List Nat)
    (hnf : nf ≠ [])
    (hsort : List.Chain' (fun a b => a.ser < b.ser) (prev.toList ++ inputs))
    (hmat : ∀ x ∈ inputs, x.maturity ≤ height)
    (hben : ∀ x ∈ inputs, utxoBenign v x) :
    inputLoop v height hashes prev agg csum nf inputs =
      .ok (agg, csum, nf ++ notFoundList v hashes inputs) := by
  induction inputs generalizing prev nf with
  | nil => simp [inputLoop, notFoundList]
  | cons input rest ih =>
    have hguard := sortGuard_false_of_chain prev input rest hsort
    have hm := hmat input (List.mem_cons_self _ _)
    have hsort' := chain_tail prev input rest hsort
    have hmat' : ∀ x ∈ rest, x.maturity ≤ height :=
      fun x hx => hmat x (List.mem_cons_of_mem _ hx)
    have hben' : ∀ x ∈ rest, utxoBenign v x :=
      fun x hx => hben x (List.mem_cons_of_mem _ hx)
    rw [inputLoop.eq_def]
    dsimp only []
    rw [hguard, if_neg (by simp), if_neg (not_not_intro hm)]
    rcases hben input (List.mem_cons_self _ _) with hok | hunk
    · rw [hok]
      dsimp only []
      rw [if_neg (by simpa using hnf)]
      rw [ih (some input) nf hnf hsort' hmat' hben']
      rw [notFoundList_cons, if_neg (by simp [inputMissing, hok])]
      simp
    · rw [hunk]
      dsimp only []
      by_cases hall : (hashes.all fun hash => decide (hash ≠ input.output_hash)) = true
      · have hmiss : inputMissing v hashes input = true := by
          simp only [inputMissing]
          rw [hunk, hall]
          simp
        rw [if_pos hall]
        rw [if_neg (by simp)]
        rw [ih (some input) (nf ++ [input.output_hash]) (by simp) hsort' hmat' hben']
        rw [notFoundList_cons, if_pos hmiss]
        simp
      · have hmiss : inputMissing v hashes input = false := by
          simp only [inputMissing]
          rw [hunk]
          simp only [Bool.and_eq_false_iff]
          right
          simpa using hall
        rw [if_neg hall]
        rw [if_neg (by simpa using hnf)]
        rw [ih (some input) nf hnf hsort' hmat' hben']
        rw [notFoundList_cons, if_neg (by rw [hmiss]; simp)]
        simp

theorem inputLoop_clean_append (v : BlockValidator) (height : Nat) (hashes : List Nat)
    (ks₁ rest : List TransactionInput) (prev : Option TransactionInput) (agg csum : Int)
    (hsort : List.Chain' (fun a b => a.ser < b.ser) (prev.toList ++ ks₁))
    (hmat : ∀ x ∈ ks₁, x.maturity ≤ height)
    (hres : ∀ x ∈ ks₁, utxoResolved v hashes x)
    (hscript : ∀ x ∈ ks₁, x.script_key.isSome = true) :
    inputLoop v height hashes prev agg csum [] (ks₁ ++ rest) =
      inputLoop v height hashes ((prev.toList ++ ks₁).getLast?)
        (agg + inputKeySum ks₁) (csum + inputCommitSum ks₁) [] rest := by
  induction ks₁ generalizing prev agg csum with
  | nil =>
    cases prev <;> simp [inputKeySum, inputCommitSum]
  | cons input ks ih =>
    have hsort₀ : List.Chain' (fun a b : TransactionInput => a.ser < b.ser)
        (prev.toList ++ input :: ks) := hsort
    have hguard := sortGuard_false_of_chain prev input ks hsort₀
    have hm := hmat input (List.mem_cons_self _ _)
    have hsort' := chain_tail prev input ks hsort₀
    obtain ⟨pk, hpk⟩ := Option.isSome_iff_exists.mp (hscript input (List.mem_cons_self _ _))
    have hlast : ((some input).toList ++ ks).getLast? = (prev.toList ++ input :: ks).getLast? := by
      cases prev <;> simp [List.getLast?_append_cons]
    have hkey : agg + pk + inputKeySum ks = agg + inputKeySum (input :: ks) := by
      simp only [inputKeySum, List.map_cons, List.sum_cons, hpk, Option.getD_some]
      ring
    have hcom : csum + input.commitment + inputCommitSum ks =
        csum + inputCommitSum (input :: ks) := by
      simp only [inputCommitSum, List.map_cons, List.sum_cons]
      ring
    rw [List.cons_append, inputLoop.eq_def]
    dsimp only []
    rw [hguard, if_neg (by simp), if_neg (not_not_intro hm)]
    rcases hres input (List.mem_cons_self _ _) with hok | ⟨hunk, hinblock⟩
    · rw [hok]
      simp only [List.isEmpty_nil, eq_self_iff_true, if_true, hpk]
      rw [ih (some input) (agg + pk) (csum + input.commitment)
        hsort' (fun x hx => hmat x (List.mem_cons_of_mem _ hx))
        (fun x hx => hres x (List.mem_cons_of_mem _ hx))
        (fun x hx => hscript x (List.mem_cons_of_mem _ hx))]
      rw [hlast, hkey, hcom]
    · rw [hunk]
      simp only [hinblock, Bool.false_eq_true, if_false, List.nil_append, List.isEmpty_nil,
        eq_self_iff_true, if_true, hpk]
      rw [ih (some input) (agg + pk) (csum + input.commitment)
        hsort' (fun x hx => hmat x (List.mem_cons_of_mem _ hx))
        (fun x hx => hres x (List.mem_cons_of_mem _ hx))
        (fun x hx => hscript x (List.mem_cons_of_mem _ hx))]
      rw [hlast, hkey, hcom]

theorem resolved_of_benign_not_missing (v : BlockValidator) (hashes : List Nat)
    (x : TransactionInput) (hb : utxoBenign v x)
    (hm : inputMissing v hashes x = false) : utxoResolved v hashes x := by
  rcases hb with h | h
  · exact Or.inl h
  · refine Or.inr ⟨h, ?_⟩
    simp only [inputMissing, h] at hm
    simpa using hm

theorem notFoundList_append (v : BlockValidator) (hashes : List Nat)
    (l₁ l₂ : List TransactionInput) :
    notFoundList v hashes (l₁ ++ l₂) =
      notFoundList v hashes l₁ ++ notFoundList v hashes l₂ := by
  simp [notFoundList, List.filterMap_append]

theorem notFoundList_eq_nil (v : BlockValidator) (hashes : List Nat)
    (l : List TransactionInput) (h : ∀ x ∈ l, inputMissing v hashes x = false) :
    notFoundList v hashes l = [] := by
  refine List.filterMap_eq_nil_iff.mpr fun a ha => ?_
  rw [h a ha]
  simp

theorem inputLoop_clean_inv (v : BlockValidator) (height : Nat) (hashes : List Nat)
    (inputs : List TransactionInput) (prev : Option TransactionInput)
    (agg csum : Int) (r : Int × Int × List Nat)
    (h : inputLoop v height hashes prev agg csum [] inputs = .ok r)
    (hre : r.2.2 = []) :
    List.Chain' (fun a b => a.ser < b.ser) (prev.toList ++ inputs) ∧
    (∀ x ∈ inputs, x.maturity ≤ height) ∧
    (∀ x ∈ inputs, utxoResolved v hashes x) ∧
    (∀ x ∈ inputs, x.script_key.isSome = true) ∧
    r.1 = agg + inputKeySum inputs ∧
    r.2.1 = csum + inputCommitSum inputs := by
  induction inputs generalizing prev agg csum with
  | nil =>
    simp only [inputLoop, Except.ok.injEq] at h
    subst h
    exact ⟨by cases prev <;> simp, by simp, by simp, by simp,
      by simp [inputKeySum], by simp [inputCommitSum]⟩
  | cons input rest ih =>
    rw [inputLoop.eq_def] at h
    dsimp only [] at h
    by_cases hguard : sortGuard prev input = true
    · rw [if_pos hguard] at h; cases h
    · have hguardf : sortGuard prev input = false := by
        cases hsg : sortGuard prev input
        · rfl
        · exact absurd hsg hguard
      rw [hguardf, if_neg (by simp)] at h
      by_cases hm : input.maturity ≤ height
      · rw [if_neg (not_not_intro hm)] at h
        cases hE : v.check_input_is_utxo input with
        | error e =>
          rw [hE] at h
          cases e
          · dsimp only [] at h; cases h
          · dsimp only [] at h; cases h
          · dsimp only [] at h; cases h
          · dsimp only [] at h; cases h
          · dsimp only [] at h
            by_cases hall : (hashes.all fun hash => decide (hash ≠ input.output_hash)) = true
            · rw [if_pos hall] at h
              simp only [List.nil_append, List.isEmpty_cons, Bool.false_eq_true,
                if_false] at h
              obtain ⟨t, ht⟩ := inputLoop_nf_mono _ _ _ _ _ _ _ _ _ h
              rw [hre] at ht
              simp at ht
            · rw [if_neg hall] at h
              simp only [List.isEmpty_nil, eq_self_iff_true, if_true] at h
              cases hsk : input.script_key with
              | none => rw [hsk] at h; cases h
              | some pk =>
                rw [hsk] at h
                obtain ⟨hchain, hmat', hres', hscript', hkey, hcom⟩ :=
                  ih (some input) (agg + pk) (csum + input.commitment) h
                refine ⟨?_, ?_, ?_, ?_, ?_, ?_⟩
                · cases prev with
                  | none => exact hchain
                  | some p =>
                    refine List.chain'_cons.mpr ⟨?_, hchain⟩
                    simp only [sortGuard, decide_eq_false_iff_not] at hguardf
                    omega
                · intro x hx
                  rcases List.mem_cons.mp hx with rfl | hx
                  · exact hm
                  · exact hmat' x hx
                · intro x hx
                  rcases List.mem_cons.mp hx with rfl | hx
                  · exact Or.inr ⟨hE, by simpa using hall⟩
                  · exact hres' x hx
                · intro x hx
                  rcases List.mem_cons.mp hx with rfl | hx
                  · simp [hsk]
                  · exact hscript' x hx
                · rw [hkey]
                  simp only [inputKeySum, List.map_cons, List.sum_cons, hsk,
                    Option.getD_some]
                  ring
                · rw [hcom]
                  simp only [inputCommitSum, List.map_cons, List.sum_cons]
                  ring
          all_goals
            dsimp only [] at h
            cases h
        | ok u =>
          cases u
          rw [hE] at h
          simp only [List.isEmpty_nil, eq_self_iff_true, if_true] at h
          cases hsk : input.script_key with
          | none => rw [hsk] at h; cases h
          | some pk =>
            rw [hsk] at h
            obtain ⟨hchain, hmat', hres', hscript', hkey, hcom⟩ :=
              ih (some input) (agg + pk) (csum + input.commitment) h
            refine ⟨?_, ?_, ?_, ?_, ?_, ?_⟩
            · cases prev with
              | none => exact hchain
              | some p =>
                refine List.chain'_cons.mpr ⟨?_, hchain⟩
                simp only [sortGuard, decide_eq_false_iff_not] at hguardf
                omega
            · intro x hx
              rcases List.mem_cons.mp hx with rfl | hx
              · exact hm
              · exact hmat' x hx
            · intro x hx
              rcases List.mem_cons.mp hx with rfl | hx
              · exact Or.inl hE
              · exact hres' x hx
            · intro x hx
              rcases List.mem_cons.mp hx with rfl | hx
              · simp [hsk]
              · exact hscript' x hx
            · rw [hkey]
              simp only [inputKeySum, List.map_cons, List.sum_cons, hsk,
                Option.getD_some]
              ring
            · rw [hcom]
              simp only [inputCommitSum, List.map_cons, List.sum_cons]
              ring
      · rw [if_pos hm] at h
        cases h

theorem inputLoop_unsorted (v : BlockValidator) (height : Nat) (hashes : List Nat)
    (inputs : List TransactionInput) (prev : Option TransactionInput) (agg csum : Int)
    (hmat : ∀ x ∈ inputs, x.maturity ≤ height)
    (hben : ∀ x ∈ inputs, utxoBenign v x)
    (hnomiss : ∀ x ∈ inputs, inputMissing v hashes x = false)
    (hscript : ∀ x ∈ inputs, x.script_key.isSome = true)
    (hns : ¬ List.Chain' (fun a b => a.ser < b.ser) (prev.toList ++ inputs)) :
    inputLoop v height hashes prev agg csum [] inputs =
      .error .UnsortedOrDuplicateInput := by
  induction inputs generalizing prev agg csum with
  | nil =>
    exact absurd (by cases prev <;> simp) hns
  | cons input rest ih =>
    by_cases hguard : sortGuard prev input = true
    · rw [inputLoop.eq_def]
      dsimp only []
      rw [if_pos hguard]
    · have hguardf : sortGuard prev input = false := by
        cases hsg : sortGuard prev input
        · rfl
        · exact absurd hsg hguard
      have hns' : ¬ List.Chain' (fun a b : TransactionInput => a.ser < b.ser)
          ((some input).toList ++ rest) := by
        intro hchain
        apply hns
        cases prev with
        | none => exact hchain
        | some p =>
          refine List.chain'_cons.mpr ⟨?_, hchain⟩
          simp only [sortGuard, decide_eq_false_iff_not] at hguardf
          omega
      obtain ⟨pk, hpk⟩ := Option.isSome_iff_exists.mp
        (hscript input (List.mem_cons_self _ _))
      rw [inputLoop.eq_def]
      dsimp only []
      rw [hguardf, if_neg (by simp),
        if_neg (not_not_intro (hmat input (List.mem_cons_self _ _)))]
      have hrest_mat : ∀ x ∈ rest, x.maturity ≤ height :=
        fun x hx => hmat x (List.mem_cons_of_mem _ hx)
      have hrest_ben : ∀ x ∈ rest, utxoBenign v x :=
        fun x hx => hben x (List.mem_cons_of_mem _ hx)
      have hrest_nm : ∀ x ∈ rest, inputMissing v hashes x = false :=
        fun x hx => hnomiss x (List.mem_cons_of_mem _ hx)
      have hrest_sc : ∀ x ∈ rest, x.script_key.isSome = true :=
        fun x hx => hscript x (List.mem_cons_of_mem _ hx)
      rcases resolved_of_benign_not_missing v hashes input
          (hben input (List.mem_cons_self _ _))
          (hnomiss input (List.mem_cons_self _ _)) with hok | ⟨hunk, hinblock⟩
      · rw [hok]
        simp only [List.isEmpty_nil, eq_self_iff_true, if_true, hpk]
        exact ih (some input) (agg + pk) (csum + input.commitment)
          hrest_mat hrest_ben hrest_nm hrest_sc hns'
      · rw [hunk]
        simp only [hinblock, Bool.false_eq_true, if_false, List.isEmpty_nil,
          eq_self_iff_true, if_true, hpk]
        exact ih (some input) (agg + pk) (csum + input.commitment)
          hrest_mat hrest_ben hrest_nm hrest_sc hns'

theorem start_input_validation_unsorted (v : BlockValidator) (header : BlockHeader)
    (hashes : List Nat) (inputs : List TransactionInput)
    (hmat : ∀ x ∈ inputs, x.maturity ≤ header.height)
    (hben : ∀ x ∈ inputs, utxoBenign v x)
    (hnomiss : ∀ x ∈ inputs, inputMissing v hashes x = false)
    (hscript : ∀ x ∈ inputs, x.script_key.isSome = true)
    (hns : ¬ List.Chain' (fun a b => a.ser < b.ser) inputs) :
    start_input_validation v header hashes inputs = .error .UnsortedOrDuplicateInput := by
  simp only [start_input_validation]
  rw [inputLoop_unsorted v header.height hashes inputs none 0 0 hmat hben hnomiss hscript
    (by simpa using hns)]

theorem start_input_validation_ok_inv (v : BlockValidator) (header : BlockHeader)
    (hashes : List Nat) (inputs : List TransactionInput) (d : InputValidationData)
    (h : start_input_validation v header hashes inputs = .ok d) :
    List.Chain' (fun a b => a.ser < b.ser) inputs ∧
    (∀ x ∈ inputs, x.maturity ≤ header.height) ∧
    (∀ x ∈ inputs, utxoResolved v hashes x) ∧
    (∀ x ∈ inputs, x.script_key.isSome = true) ∧
    d.inputs = inputs ∧
    d.aggregate_input_key = inputKeySum inputs ∧
    d.commitment_sum = inputCommitSum inputs := by
  simp only [start_input_validation] at h
  split at h
  next e heq => cases h
  next a c nf heq =>
    split at h
    next hne => cases h
    next hne =>
      simp only [Except.ok.injEq] at h
      subst h
      have hnf : nf = [] := by
        cases hnfE : nf with
        | nil => rfl
        | cons y ys => rw [hnfE] at hne; simp at hne
      subst hnf
      obtain ⟨hchain, hmat, hres, hscript, hkey, hcom⟩ :=
        inputLoop_clean_inv v header.height hashes inputs none 0 0 (a, c, []) heq rfl
      refine ⟨by simpa using hchain, hmat, hres, hscript, rfl, ?_, ?_⟩
      · simpa using hkey
      · simpa using hcom

theorem start_input_validation_unknown (v : BlockValidator) (header : BlockHeader)
    (hashes : List Nat) (pre : List TransactionInput) (m : TransactionInput)
    (rest : List TransactionInput)
    (hsort : List.Chain' (fun a b => a.ser < b.ser) (pre ++ m :: rest))
    (hmat : ∀ x ∈ pre ++ m :: rest, x.maturity ≤ header.height)
    (hben : ∀ x ∈ pre ++ m :: rest, utxoBenign v x)
    (hpre : ∀ x ∈ pre, inputMissing v hashes x = false)
    (hscript : ∀ x ∈ pre, x.script_key.isSome = true)
    (hm : inputMissing v hashes m = true) :
    start_input_validation v header hashes (pre ++ m :: rest) =
      .error (.UnknownInputs (notFoundList v hashes (pre ++ m :: rest))) := by
  obtain ⟨hc1, hc2, hlink⟩ := List.chain'_append.mp hsort
  have hmm := hm
  simp only [inputMissing, Bool.and_eq_true, decide_eq_true_eq] at hmm
  obtain ⟨hunk, hall⟩ := hmm
  have hresolved : ∀ x ∈ pre, utxoResolved v hashes x := fun x hx =>
    resolved_of_benign_not_missing v hashes x
      (hben x (List.mem_append_left _ hx)) (hpre x hx)
  simp only [start_input_validation]
  rw [inputLoop_clean_append v header.height hashes pre (m :: rest) none 0 0
    (by simpa using hc1)
    (fun x hx => hmat x (List.mem_append_left _ hx)) hresolved hscript]
  have hguard : sortGuard ((Option.none.toList ++ pre).getLast?) m = false := by
    simp only [Option.toList_none, List.nil_append]
    cases hgl : pre.getLast? with
    | none => rfl
    | some p =>
      have hlt := hlink p (by rw [hgl]; simp) m (by simp)
      simp only [sortGuard, decide_eq_false_iff_not]
      omega
  rw [inputLoop.eq_def]
  dsimp only []
  rw [hguard, if_neg (by simp),
    if_neg (not_not_intro (hmat m (List.mem_append_right _ (List.mem_cons_self _ _)))),
    hunk]
  simp only [hall, if_true, List.nil_append, List.isEmpty_cons, Bool.false_eq_true,
    if_false]
  rw [inputLoop_absorb v header.height hashes rest (some m) (0 + inputKeySum pre)
    (0 + inputCommitSum pre) [m.output_hash] (by simp) (by simpa using hc2)
    (fun x hx => hmat x (List.mem_append_right _ (List.mem_cons_of_mem _ hx)))
    (fun x hx => hben x (List.mem_append_right _ (List.mem_cons_of_mem _ hx)))]
  have hres_ne : (([m.output_hash] ++ notFoundList v hashes rest).isEmpty) = false := by
    simp
  simp only [hres_ne, Bool.not_false, if_true]
  rw [notFoundList_append, notFoundList_eq_nil v hashes pre hpre, notFoundList_cons,
    if_pos hm]
  simp

theorem offSum_cons (p : Nat × TransactionOutput) (l : List (Nat × TransactionOutput)) :
    offSum (p :: l) = (if p.2.is_coinbase then 0 else p.2.sender_offset_public_key) + offSum l := by
  simp [offSum]

theorem commSumP_cons (p : Nat × TransactionOutput) (l : List (Nat × TransactionOutput)) :
    commSumP (p :: l) = p.2.commitment + commSumP l := by
  simp [commSumP]

theorem countCb_cons (p : Nat × TransactionOutput) (l : List (Nat × TransactionOutput)) :
    countCb (p :: l) = countCb l + (if p.2.is_coinbase = true then 1 else 0) := by
  simp [countCb, List.countP_cons]

theorem offSum_append (l₁ l₂ : List (Nat × TransactionOutput)) :
    offSum (l₁ ++ l₂) = offSum l₁ + offSum l₂ := by
  simp [offSum]

theorem commSumP_append (l₁ l₂ : List (Nat × TransactionOutput)) :
    commSumP (l₁ ++ l₂) = commSumP l₁ + commSumP l₂ := by
  simp [commSumP]

theorem countCb_append (l₁ l₂ : List (Nat × TransactionOutput)) :
    countCb (l₁ ++ l₂) = countCb l₁ + countCb l₂ := by
  simp [countCb, List.countP_append]

theorem firstCb_append (l₁ l₂ : List (Nat × TransactionOutput)) :
    firstCb (l₁ ++ l₂) = (firstCb l₁).or (firstCb l₂) := by
  simp only [firstCb, List.find?_append]
  cases (l₁.find? fun p => p.2.is_coinbase) <;> simp

theorem firstCb_eq_none (l : List (Nat × TransactionOutput)) (h : countCb l = 0) :
    firstCb l = none := by
  have hf : l.find? (fun p => p.2.is_coinbase) = none := by
    refine List.find?_eq_none.mpr fun x hx hpx => ?_
    have hpos : 0 < countCb l := by
      simp only [countCb]
      rw [List.countP_pos_iff]
      exact ⟨x, hx, hpx⟩
    omega
  simp [firstCb, hf]

theorem firstCb_isSome (l : List (Nat × TransactionOutput)) (h : 0 < countCb l) :
    (firstCb l).isSome = true := by
  simp only [countCb, List.countP_pos_iff] at h
  obtain ⟨x, hx, hpx⟩ := h
  rcases hfind : l.find? (fun p => p.2.is_coinbase) with - | y
  · rw [List.find?_eq_none] at hfind
    exact absurd hpx (hfind x hx)
  · simp [firstCb, hfind]

theorem count_one_unique {α : Type} (p : α → Bool) (l : List α) (hc : l.countP p = 1)
    (x y : α) (hx : x ∈ l) (hpx : p x = true) (hy : y ∈ l) (hpy : p y = true) : x = y := by
  by_contra hne
  have hx' : x ∈ l.filter p := List.mem_filter.mpr ⟨hx, hpx⟩
  have hy' : y ∈ l.filter p := List.mem_filter.mpr ⟨hy, hpy⟩
  rw [List.countP_eq_length_filter] at hc
  obtain ⟨z, hz⟩ := List.length_eq_one.mp hc
  rw [hz] at hx' hy'
  simp only [List.mem_singleton] at hx' hy'
  exact hne (hx'.trans hy'.symm)

theorem find?_eq_of_unique {α : Type} (p : α → Bool) (l : List α) (x : α)
    (hx : x ∈ l) (hpx : p x = true) (huniq : ∀ y ∈ l, p y = true → y = x) :
    l.find? p = some x := by
  induction l with
  | nil => cases hx
  | cons a t ih =>
    cases hpa : p a with
    | true =>
      rw [List.find?_cons_of_pos _ hpa]
      rw [huniq a (List.mem_cons_self _ _) hpa]
    | false =>
      rw [List.find?_cons_of_neg _ (by simp [hpa])]
      rcases List.mem_cons.mp hx with rfl | hxt
      · rw [hpa] at hpx; cases hpx
      · exact ih hxt fun y hy hpy => huniq y (List.mem_cons_of_mem _ hy) hpy

theorem mem_concatShards {α : Type} (x : α) (l : List (List α)) :
    x ∈ concatShards l ↔ ∃ s ∈ l, x ∈ s := by
  induction l with
  | nil => simp [concatShards]
  | cons s rest ih =>
    simp [concatShards, List.mem_append, ih]

theorem enumFrom_map_snd {α : Type} (i : Nat) (l : List α) :
    (enumFrom i l).map Prod.snd = l := by
  induction l generalizing i with
  | nil => rfl
  | cons a t ih => simp [enumFrom, ih]

theorem enumFrom_mem_snd {α : Type} (i : Nat) (l : List α) (p : Nat × α)
    (h : p ∈ enumFrom i l) : p.2 ∈ l := by
  induction l generalizing i with
  | nil => cases h
  | cons a t ih =>
    rcases List.mem_cons.mp h with rfl | h
    · simp
    · exact List.mem_cons_of_mem _ (ih (i + 1) h)

theorem enumFrom_countP {α : Type} (q : α → Bool) (i : Nat) (l : List α) :
    (enumFrom i l).countP (fun p => q p.2) = l.countP q := by
  induction l generalizing i with
  | nil => rfl
  | cons a t ih => simp [enumFrom, List.countP_cons, ih]

theorem enumFrom_get {α : Type} (i j : Nat) (l : List α) (o : α)
    (h : (j, o) ∈ enumFrom i l) : i ≤ j ∧ l[j - i]? = some o := by
  induction l generalizing i with
  | nil => cases h
  | cons a t ih =>
    rcases List.mem_cons.mp h with heq | h
    · rw [Prod.mk.injEq] at heq
      obtain ⟨rfl, rfl⟩ := heq
      exact ⟨Nat.le_refl _, by simp⟩
    · obtain ⟨hij, hget⟩ := ih (i + 1) h
      refine ⟨by omega, ?_⟩
      have hji : j - i = (j - (i + 1)) + 1 := by omega
      rw [hji]
      simpa using hget

theorem enumFrom_mem_of_mem {α : Type} (i : Nat) (l : List α) (a : α) (h : a ∈ l) :
    ∃ j, (j, a) ∈ enumFrom i l := by
  induction l generalizing i with
  | nil => cases h
  | cons b t ih =>
    rcases List.mem_cons.mp h with rfl | h
    · exact ⟨i, List.mem_cons_self _ _⟩
    · obtain ⟨j, hj⟩ := ih (i + 1) h
      exact ⟨j, List.mem_cons_of_mem _ hj⟩

theorem enumFrom_fst_ge {α : Type} (i : Nat) (l : List α) :
    ∀ x ∈ enumFrom i l, i ≤ x.1 := by
  induction l generalizing i with
  | nil => intro x hx; cases hx
  | cons a t ih =>
    intro x hx
    rcases List.mem_cons.mp hx with rfl | hx
    · exact Nat.le_refl _
    · exact Nat.le_of_succ_le (ih (i + 1) x hx)

theorem enumFrom_pairwise {α : Type} (i : Nat) (l : List α) :
    List.Pairwise (fun a b : Nat × α => a.1 < b.1) (enumFrom i l) := by
  induction l generalizing i with
  | nil => exact List.Pairwise.nil
  | cons a t ih =>
    refine List.pairwise_cons.mpr ⟨fun x hx => ?_, ih (i + 1)⟩
    have := enumFrom_fst_ge (i + 1) t x hx
    omega

theorem insertByKey_perm {α : Type} (x : Nat × α) (l : List (Nat × α)) :
    List.Perm (insertByKey x l) (x :: l) := by
  induction l with
  | nil => exact List.Perm.refl _
  | cons y t ih =>
    by_cases hle : x.1 ≤ y.1
    · rw [insertByKey, if_pos hle]
    · rw [insertByKey, if_neg hle]
      exact (ih.cons y).trans (List.Perm.swap x y t)

theorem sortByKey_perm {α : Type} (l : List (Nat × α)) :
    List.Perm (sortByKey l) l := by
  induction l with
  | nil => exact List.Perm.refl _
  | cons x t ih =>
    exact (insertByKey_perm x (sortByKey t)).trans (ih.cons x)

theorem insertByKey_pairwise {α : Type} (x : Nat × α) (l : List (Nat × α))
    (h : List.Pairwise (fun a b : Nat × α => a.1 ≤ b.1) l) :
    List.Pairwise (fun a b : Nat × α => a.1 ≤ b.1) (insertByKey x l) := by
  induction l with
  | nil => simp [insertByKey]
  | cons y t ih =>
    obtain ⟨hy, ht⟩ := List.pairwise_cons.mp h
    by_cases hle : x.1 ≤ y.1
    · rw [insertByKey, if_pos hle]
      refine List.pairwise_cons.mpr ⟨fun z hz => ?_, h⟩
      rcases List.mem_cons.mp hz with rfl | hz
      · exact hle
      · exact Nat.le_trans hle (hy z hz)
    · rw [insertByKey, if_neg hle]
      refine List.pairwise_cons.mpr ⟨fun z hz => ?_, ih ht⟩
      have hmem := (insertByKey_perm x t).mem_iff.mp hz
      rcases List.mem_cons.mp hmem with rfl | hzt
      · omega
      · exact hy z hzt

theorem sortByKey_pairwise {α : Type} (l : List (Nat × α)) :
    List.Pairwise (fun a b : Nat × α => a.1 ≤ b.1) (sortByKey l) := by
  induction l with
  | nil => exact List.Pairwise.nil
  | cons x t ih => exact insertByKey_pairwise x (sortByKey t) ih

theorem sortByKey_eq_of_perm_enum {α : Type} (l : List (Nat × α)) (outs : List α)
    (h : List.Perm l (enumFrom 0 outs)) : sortByKey l = enumFrom 0 outs := by
  have hperm : List.Perm (sortByKey l) (enumFrom 0 outs) := (sortByKey_perm l).trans h
  have hkeys : ((enumFrom 0 outs).map Prod.fst).Nodup :=
    List.pairwise_map.mpr ((enumFrom_pairwise 0 outs).imp (fun hab => Nat.ne_of_lt hab))
  have hkeys' : ((sortByKey l).map Prod.fst).Nodup := (hperm.map Prod.fst).nodup_iff.mpr hkeys
  have hne : List.Pairwise (fun a b : Nat × α => a.1 ≠ b.1) (sortByKey l) :=
    List.pairwise_map.mp hkeys'
  have hlt : List.Pairwise (fun a b : Nat × α => a.1 < b.1) (sortByKey l) :=
    ((sortByKey_pairwise l).and hne).imp (fun hab => by omega)
  haveI : IsAntisymm (Nat × α) (fun a b : Nat × α => a.1 < b.1) :=
    ⟨fun a b h1 h2 => absurd h2 (by omega)⟩
  exact List.eq_of_perm_of_sorted hperm hlt (enumFrom_pairwise 0 outs)

theorem runWorker_ok (v : BlockValidator) (items : List (Nat × TransactionOutput))
    (agg csum : Int) (buf : List (Nat × TransactionOutput)) (cb : Option Nat)
    (hok : ∀ p ∈ items, outputChecksPass v p.2)
    (hcb : countCb items + cbWeight cb ≤ 1) :
    runWorker v agg csum buf cb items =
      .ok { outputs := buf ++ items, aggregate_sender_offset := agg + offSum items,
            commitment_sum := csum + commSumP items,
            coinbase_index := cb.or (firstCb items) } := by
  induction items generalizing agg csum buf cb with
  | nil => simp [runWorker, offSum, commSumP, firstCb]
  | cons p rest ih =>
    obtain ⟨idx, output⟩ := p
    have hmsig : output.metadata_sig_valid = true :=
      (hok (idx, output) (List.mem_cons_self _ _)).1
    have hrp : v.bypass_range_proof_verification = true ∨ output.range_proof_valid = true :=
      (hok (idx, output) (List.mem_cons_self _ _)).2.1
    have hdup : v.check_not_duplicate_txo output = .ok () :=
      (hok (idx, output) (List.mem_cons_self _ _)).2.2
    have hok' : ∀ q ∈ rest, outputChecksPass v q.2 :=
      fun q hq => hok q (List.mem_cons_of_mem _ hq)
    rw [countCb_cons] at hcb
    rcases Bool.eq_false_or_eq_true output.is_coinbase with hcbout | hcbout
    · rw [hcbout, if_pos rfl] at hcb
      have hcbnone : cb = none := by
        cases cb with
        | none => rfl
        | some x => rw [cbWeight_some] at hcb; omega
      subst hcbnone
      rw [cbWeight_none] at hcb
      simp only [runWorker]
      rw [if_neg (by simp), hcbout]
      simp only [eq_self_iff_true, if_true]
      rw [if_neg (by simp [hmsig]), if_neg (by rcases hrp with h | h <;> simp [h]), hdup]
      rw [ih agg (csum + output.commitment) (buf ++ [(idx, output)]) (some idx) hok'
        (by rw [cbWeight_some]; omega)]
      rw [show firstCb ((idx, output) :: rest) = some idx by
        rw [firstCb, List.find?_cons_of_pos _ (by simpa using hcbout)]
        rfl]
      rw [offSum_cons, commSumP_cons, hcbout]
      simp [add_assoc]
    · rw [hcbout, if_neg (by simp)] at hcb
      simp only [runWorker]
      rw [if_neg (by simp [hcbout]), hcbout]
      simp only [Bool.false_eq_true, if_false]
      rw [if_neg (by simp [hmsig]), if_neg (by rcases hrp with h | h <;> simp [h]), hdup]
      rw [ih (agg + output.sender_offset_public_key) (csum + output.commitment)
        (buf ++ [(idx, output)]) cb hok' (by omega)]
      rw [show firstCb ((idx, output) :: rest) = firstCb rest by
        rw [firstCb, List.find?_cons_of_neg _ (by simpa using hcbout)]
        rfl]
      rw [offSum_cons, commSumP_cons, hcbout]
      simp [add_assoc]

theorem runWorker_ok_inv (v : BlockValidator) (items : List (Nat × TransactionOutput))
    (agg csum : Int) (buf : List (Nat × TransactionOutput)) (cb : Option Nat)
    (w : WorkerResult) (h : runWorker v agg csum buf cb items = .ok w) :
    (∀ p ∈ items, outputChecksPass v p.2) ∧ countCb items + cbWeight cb ≤ 1 := by
  induction items generalizing agg csum buf cb with
  | nil =>
    refine ⟨by simp, ?_⟩
    rw [show countCb [] = 0 from rfl]
    cases cb <;> simp [cbWeight]
  | cons p rest ih =>
    obtain ⟨idx, output⟩ := p
    rw [runWorker.eq_def] at h
    dsimp only [] at h
    by_cases hguard : (output.is_coinbase && cb.isSome) = true
    · rw [if_pos hguard] at h
      cases h
    · rw [if_neg hguard] at h
      by_cases hmsig : output.metadata_sig_valid = false
      · rw [if_pos hmsig] at h
        cases h
      · rw [if_neg hmsig] at h
        by_cases hrp : v.bypass_range_proof_verification = false ∧ output.range_proof_valid = false
        · rw [if_pos hrp] at h
          cases h
        · rw [if_neg hrp] at h
          cases hdup : v.check_not_duplicate_txo output with
          | error e =>
            rw [hdup] at h
            cases h
          | ok u =>
            cases u
            rw [hdup] at h
            obtain ⟨hrest, hcbr⟩ := ih _ _ _ _ h
            refine ⟨?_, ?_⟩
            · intro q hq
              rcases List.mem_cons.mp hq with rfl | hq
              · refine ⟨by simpa using hmsig, ?_, hdup⟩
                rcases Classical.em (v.bypass_range_proof_verification = true) with hb | hb
                · exact Or.inl hb
                · right
                  rcases Bool.eq_false_or_eq_true output.range_proof_valid with hr | hr
                  · exact hr
                  · exact absurd ⟨by simpa using hb, hr⟩ hrp
              · exact hrest q hq
            · rw [countCb_cons]
              rcases Bool.eq_false_or_eq_true output.is_coinbase with hcbout | hcbout
              · rw [hcbout, if_pos rfl]
                have hcbnone : cb = none := by
                  cases cb with
                  | none => rfl
                  | some x => simp [hcbout] at hguard
                subst hcbnone
                rw [hcbout] at hcbr
                simp only [eq_self_iff_true, if_true, cbWeight_some] at hcbr
                rw [cbWeight_none]
                omega
              · rw [hcbout, if_neg (by simp)]
                rw [hcbout] at hcbr
                simp only [Bool.false_eq_true, if_false] at hcbr
                omega

theorem runWorker_err_mtoc (v : BlockValidator) (items : List (Nat × TransactionOutput))
    (agg csum : Int) (buf : List (Nat × TransactionOutput)) (cb : Option Nat)
    (hok : ∀ p ∈ items, outputChecksPass v p.2)
    (hcb : 2 ≤ countCb items + cbWeight cb) :
    runWorker v agg csum buf cb items = .error (.TransactionError .MoreThanOneCoinbase) := by
  induction items generalizing agg csum buf cb with
  | nil =>
    exfalso
    have h1 : cbWeight cb ≤ 1 := by cases cb <;> simp [cbWeight]
    rw [show countCb [] = 0 from rfl] at hcb
    omega
  | cons p rest ih =>
    obtain ⟨idx, output⟩ := p
    have hmsig : output.metadata_sig_valid = true :=
      (hok (idx, output) (List.mem_cons_self _ _)).1
    have hrp : v.bypass_range_proof_verification = true ∨ output.range_proof_valid = true :=
      (hok (idx, output) (List.mem_cons_self _ _)).2.1
    have hdup : v.check_not_duplicate_txo output = .ok () :=
      (hok (idx, output) (List.mem_cons_self _ _)).2.2
    have hok' : ∀ q ∈ rest, outputChecksPass v q.2 :=
      fun q hq => hok q (List.mem_cons_of_mem _ hq)
    rw [countCb_cons] at hcb
    rcases Bool.eq_false_or_eq_true output.is_coinbase with hcbout | hcbout
    · rw [hcbout, if_pos rfl] at hcb
      cases hcbs : cb with
      | some x =>
        simp only [runWorker]
        rw [if_pos (by simp [hcbout])]
      | none =>
        subst hcbs
        rw [cbWeight_none] at hcb
        simp only [runWorker]
        rw [if_neg (by simp), hcbout]
        simp only [eq_self_iff_true, if_true]
        rw [if_neg (by simp [hmsig]), if_neg (by rcases hrp with h | h <;> simp [h]), hdup]
        exact ih _ _ _ (some idx) hok' (by rw [cbWeight_some]; omega)
    · rw [hcbout, if_neg (by simp)] at hcb
      simp only [runWorker]
      rw [if_neg (by simp [hcbout]), hcbout]
      simp only [Bool.false_eq_true, if_false]
      rw [if_neg (by simp [hmsig]), if_neg (by rcases hrp with h | h <;> simp [h]), hdup]
      exact ih _ _ _ cb hok' (by omega)

theorem mergeWorkers_clean (v : BlockValidator)
    (shards : List (List (Nat × TransactionOutput)))
    (agg csum : Int) (buf : List (Nat × TransactionOutput)) (cb : Option Nat)
    (hok : ∀ s ∈ shards, ∀ p ∈ s, outputChecksPass v p.2)
    (hcb : (shards.map countCb).sum + cbWeight cb ≤ 1) :
    mergeWorkers agg csum buf cb (shards.map (runWorker v 0 0 [] none)) =
      .ok (agg + offSum (concatShards shards), csum + commSumP (concatShards shards),
           buf ++ concatShards shards, cb.or (firstCb (concatShards shards))) := by
  induction shards generalizing agg csum buf cb with
  | nil =>
    simp [mergeWorkers, concatShards, offSum, commSumP, firstCb]
  | cons s rest ih =>
    rw [List.map_cons, List.sum_cons] at hcb
    have hsok : ∀ p ∈ s, outputChecksPass v p.2 := hok s (List.mem_cons_self _ _)
    have hrok : ∀ t ∈ rest, ∀ p ∈ t, outputChecksPass v p.2 :=
      fun t ht => hok t (List.mem_cons_of_mem _ ht)
    have hscb : countCb s + cbWeight none ≤ 1 := by rw [cbWeight_none]; omega
    rw [List.map_cons, runWorker_ok v s 0 0 [] none hsok hscb, mergeWorkers.eq_def]
    dsimp only []
    rcases Nat.eq_zero_or_pos (countCb s) with hzero | hpos
    · rw [firstCb_eq_none s hzero]
      simp only [Option.none_or]
      rw [if_neg (by simp), if_neg (by simp)]
      rw [ih (agg + (0 + offSum s)) (csum + (0 + commSumP s)) (buf ++ ([] ++ s)) cb hrok
        (by omega)]
      rw [concatShards, offSum_append, commSumP_append, firstCb_append,
        firstCb_eq_none s hzero]
      simp [add_assoc]
    · have hcbnone : cb = none := by
        cases cb with
        | none => rfl
        | some x => rw [cbWeight_some] at hcb; omega
      subst hcbnone
      rw [cbWeight_none] at hcb
      obtain ⟨j, hj⟩ := Option.isSome_iff_exists.mp (firstCb_isSome s hpos)
      rw [hj]
      simp only [Option.none_or]
      rw [if_neg (by simp), if_pos (by simp)]
      rw [ih (agg + (0 + offSum s)) (csum + (0 + commSumP s)) (buf ++ ([] ++ s)) (some j) hrok
        (by rw [cbWeight_some]; omega)]
      rw [concatShards, offSum_append, commSumP_append, firstCb_append, hj]
      simp [add_assoc]

theorem mergeWorkers_ok_inv (rs : List (Except ValidationError WorkerResult))
    (agg csum : Int) (buf : List (Nat × TransactionOutput)) (cb : Option Nat)
    (out : Int × Int × List (Nat × TransactionOutput) × Option Nat)
    (h : mergeWorkers agg csum buf cb rs = .ok out) :
    ∀ r ∈ rs, ∃ w, r = .ok w := by
  induction rs generalizing agg csum buf cb with
  | nil => simp
  | cons r rest ih =>
    intro r' hr'
    rw [mergeWorkers.eq_def] at h
    dsimp only [] at h
    rcases r with e | w
    · cases h
    · dsimp only [] at h
      rcases List.mem_cons.mp hr' with rfl | hr'
      · exact ⟨w, rfl⟩
      · by_cases hg : (w.coinbase_index.isSome && cb.isSome) = true
        · rw [if_pos hg] at h
          cases h
        · rw [if_neg hg] at h
          exact ih _ _ _ _ h r' hr'

theorem mergeWorkers_mtoc (v : BlockValidator)
    (shards : List (List (Nat × TransactionOutput)))
    (agg csum : Int) (buf : List (Nat × TransactionOutput)) (cb : Option Nat)
    (hok : ∀ s ∈ shards, ∀ p ∈ s, outputChecksPass v p.2)
    (hcb : 2 ≤ (shards.map countCb).sum + cbWeight cb) :
    mergeWorkers agg csum buf cb (shards.map (runWorker v 0 0 [] none)) =
      .error (.TransactionError .MoreThanOneCoinbase) := by
  induction shards generalizing agg csum buf cb with
  | nil =>
    exfalso
    have h1 : cbWeight cb ≤ 1 := by cases cb <;> simp [cbWeight]
    simp only [List.map_nil, List.sum_nil] at hcb
    omega
  | cons s rest ih =>
    rw [List.map_cons, List.sum_cons] at hcb
    have hsok : ∀ p ∈ s, outputChecksPass v p.2 := hok s (List.mem_cons_self _ _)
    have hrok : ∀ t ∈ rest, ∀ p ∈ t, outputChecksPass v p.2 :=
      fun t ht => hok t (List.mem_cons_of_mem _ ht)
    rcases Nat.lt_or_ge (countCb s) 2 with hlt | hge
    · have hscb : countCb s + cbWeight none ≤ 1 := by rw [cbWeight_none]; omega
      rw [List.map_cons, runWorker_ok v s 0 0 [] none hsok hscb, mergeWorkers.eq_def]
      dsimp only []
      rcases Nat.eq_zero_or_pos (countCb s) with hzero | hpos
      · rw [firstCb_eq_none s hzero]
        simp only [Option.none_or]
        rw [if_neg (by simp), if_neg (by simp)]
        exact ih _ _ _ cb hrok (by omega)
      · obtain ⟨j, hj⟩ := Option.isSome_iff_exists.mp (firstCb_isSome s hpos)
        rw [hj]
        simp only [Option.none_or]
        cases hcbs : cb with
        | some x =>
          rw [if_pos (by simp)]
        | none =>
          subst hcbs
          rw [cbWeight_none] at hcb
          rw [if_neg (by simp), if_pos (by simp)]
          exact ih _ _ _ (some j) hrok (by rw [cbWeight_some]; omega)
    · rw [List.map_cons,
        runWorker_err_mtoc v s 0 0 [] none hsok (by rw [cbWeight_none]; omega),
        mergeWorkers.eq_def]

theorem countCb_concatShards (l : List (List (Nat × TransactionOutput))) :
    countCb (concatShards l) = (l.map countCb).sum := by
  induction l with
  | nil => rfl
  | cons s rest ih => rw [concatShards, countCb_append, ih, List.map_cons, List.sum_cons]

theorem commSumP_enum (i : Nat) (l : List TransactionOutput) :
    commSumP (enumFrom i l) = outputCommitSum l := by
  induction l generalizing i with
  | nil => rfl
  | cons o rest ih =>
    rw [enumFrom, commSumP_cons, ih (i + 1)]
    simp [outputCommitSum]

theorem offSum_enum (i : Nat) (l : List TransactionOutput) :
    offSum (enumFrom i l) = outputOffsetSum l := by
  induction l generalizing i with
  | nil => rfl
  | cons o rest ih =>
    rw [enumFrom, offSum_cons, ih (i + 1)]
    simp [outputOffsetSum]

theorem shard_static_of_perm (v : BlockValidator) (outputs : List TransactionOutput)
    (shards : List (List (Nat × TransactionOutput)))
    (hperm : List.Perm (concatShards shards) (enumFrom 0 outputs))
    (hall : ∀ x ∈ outputs, outputChecksPass v x) :
    ∀ s ∈ shards, ∀ p ∈ s, outputChecksPass v p.2 := by
  intro s hs p hp
  have hmem : p ∈ enumFrom 0 outputs :=
    hperm.mem_iff.mp ((mem_concatShards p shards).mpr ⟨s, hs, hp⟩)
  exact hall p.2 (enumFrom_mem_snd 0 outputs p hmem)

theorem countCb_sum_of_perm (outputs : List TransactionOutput)
    (shards : List (List (Nat × TransactionOutput)))
    (hperm : List.Perm (concatShards shards) (enumFrom 0 outputs)) :
    (shards.map countCb).sum = outputs.countP TransactionOutput.is_coinbase := by
  rw [← countCb_concatShards]
  have h1 : countCb (concatShards shards) = countCb (enumFrom 0 outputs) :=
    hperm.countP_eq _
  rw [h1, countCb, enumFrom_countP]

theorem start_output_validation_ok (v : BlockValidator) (outputs : List TransactionOutput)
    (shards : List (List (Nat × TransactionOutput))) (j : Nat) (o : TransactionOutput)
    (hperm : List.Perm (concatShards shards) (enumFrom 0 outputs))
    (hall : ∀ x ∈ outputs, outputChecksPass v x)
    (hcount : outputs.countP TransactionOutput.is_coinbase = 1)
    (hfind : (enumFrom 0 outputs).find? (fun p => p.2.is_coinbase) = some (j, o)) :
    start_output_validation v shards =
      .ok { outputs := outputs, commitment_sum := outputCommitSum outputs,
            aggregate_offset_pubkey := outputOffsetSum outputs, coinbase_index := j } := by
  have hsok := shard_static_of_perm v outputs shards hperm hall
  have hsum := countCb_sum_of_perm outputs shards hperm
  have hccat : countCb (concatShards shards) = 1 := by
    rw [countCb_concatShards, hsum, hcount]
  have hmemjo : (j, o) ∈ concatShards shards := by
    refine hperm.symm.mem_iff.mp ?_
    exact List.mem_of_find?_eq_some hfind
  have hpjo : o.is_coinbase = true := by
    have := List.find?_some hfind
    simpa using this
  have hfirst : firstCb (concatShards shards) = some j := by
    rw [firstCb, find?_eq_of_unique (fun p => p.2.is_coinbase) (concatShards shards)
      (j, o) hmemjo (by simpa using hpjo) ?_]
    · rfl
    · intro y hy hpy
      exact count_one_unique _ _ hccat y (j, o) hy hpy hmemjo (by simpa using hpjo)
  simp only [start_output_validation]
  rw [mergeWorkers_clean v shards 0 0 [] none hsok
    (by rw [cbWeight_none, hsum, hcount])]
  simp only [Option.none_or, hfirst, List.nil_append]
  rw [sortByKey_eq_of_perm_enum (concatShards shards) outputs hperm]
  rw [enumFrom_map_snd]
  have hcs : commSumP (concatShards shards) = outputCommitSum outputs := by
    rw [commSumP, (hperm.map _).sum_eq]
    exact commSumP_enum 0 outputs
  have hos : offSum (concatShards shards) = outputOffsetSum outputs := by
    rw [offSum, (hperm.map _).sum_eq]
    exact offSum_enum 0 outputs
  rw [show (0 : Int) + commSumP (concatShards shards) = commSumP (concatShards shards) by ring,
    show (0 : Int) + offSum (concatShards shards) = offSum (concatShards shards) by ring,
    hcs, hos]

theorem start_output_validation_mtoc (v : BlockValidator) (outputs : List TransactionOutput)
    (shards : List (List (Nat × TransactionOutput)))
    (hperm : List.Perm (concatShards shards) (enumFrom 0 outputs))
    (hall : ∀ x ∈ outputs, outputChecksPass v x)
    (hcount : 2 ≤ outputs.countP TransactionOutput.is_coinbase) :
    start_output_validation v shards = .error (.TransactionError .MoreThanOneCoinbase) := by
  have hsok := shard_static_of_perm v outputs shards hperm hall
  have hsum := countCb_sum_of_perm outputs shards hperm
  simp only [start_output_validation]
  rw [mergeWorkers_mtoc v shards 0 0 [] none hsok (by rw [cbWeight_none]; omega)]

theorem start_output_validation_nocb (v : BlockValidator) (outputs : List TransactionOutput)
    (shards : List (List (Nat × TransactionOutput)))
    (hperm : List.Perm (concatShards shards) (enumFrom 0 outputs))
    (hall : ∀ x ∈ outputs, outputChecksPass v x)
    (hcount : outputs.countP TransactionOutput.is_coinbase = 0) :
    start_output_validation v shards = .error (.TransactionError .NoCoinbase) := by
  have hsok := shard_static_of_perm v outputs shards hperm hall
  have hsum := countCb_sum_of_perm outputs shards hperm
  have hccat : countCb (concatShards shards) = 0 := by
    rw [countCb_concatShards, hsum, hcount]
  simp only [start_output_validation]
  rw [mergeWorkers_clean v shards 0 0 [] none hsok (by rw [cbWeight_none]; omega)]
  simp only [Option.none_or, firstCb_eq_none _ hccat]

theorem start_output_validation_ok_inv (v : BlockValidator)
    (outputs : List TransactionOutput)
    (shards : List (List (Nat × TransactionOutput))) (d : OutputValidationData)
    (hperm : List.Perm (concatShards shards) (enumFrom 0 outputs))
    (h : start_output_validation v shards = .ok d) :
    (∀ x ∈ outputs, outputChecksPass v x) ∧
    outputs.countP TransactionOutput.is_coinbase = 1 := by
  have hall : ∀ x ∈ outputs, outputChecksPass v x := by
    intro x hx
    obtain ⟨i, hi⟩ := enumFrom_mem_of_mem 0 outputs x hx
    have hcc : (i, x) ∈ concatShards shards := hperm.symm.mem_iff.mp hi
    obtain ⟨s, hs, hps⟩ := (mem_concatShards _ _).mp hcc
    rw [start_output_validation] at h
    split at h
    · cases h
    · cases h
    · rename_i agg csum buf ci heq
      have hallok := mergeWorkers_ok_inv _ _ _ _ _ _ heq
      obtain ⟨w, hw⟩ := hallok (runWorker v 0 0 [] none s) (List.mem_map_of_mem _ hs)
      obtain ⟨hstat, -⟩ := runWorker_ok_inv v s 0 0 [] none w hw
      exact hstat (i, x) hps
  refine ⟨hall, ?_⟩
  rcases Nat.lt_or_ge (outputs.countP TransactionOutput.is_coinbase) 2 with hlt | hge
  · rcases Nat.eq_zero_or_pos (outputs.countP TransactionOutput.is_coinbase) with hz | hp
    · rw [start_output_validation_nocb v outputs shards hperm hall hz] at h
      cases h
    · omega
  · rw [start_output_validation_mtoc v outputs shards hperm hall hge] at h
    cases h

theorem validate_block_body_unsorted_outputs (v : BlockValidator)
    (shards : List (List (Nat × TransactionOutput))) (block : Block)
    (h : is_all_unique_and_sorted (block.body.outputs.map TransactionOutput.ser) = false) :
    validate_block_body v shards block = .error .UnsortedOrDuplicateOutput := by
  simp only [validate_block_body]
  rw [if_pos (by simp [h])]

theorem validate_block_body_output_err (v : BlockValidator)
    (shards : List (List (Nat × TransactionOutput))) (block : Block) (e : ValidationError)
    (hsorted : is_all_unique_and_sorted (block.body.outputs.map TransactionOutput.ser) = true)
    (h : start_output_validation v shards = .error e) :
    validate_block_body v shards block = .error e := by
  simp only [validate_block_body]
  rw [if_neg (not_not_intro hsorted), h]

theorem validate_block_body_input_err (v : BlockValidator)
    (shards : List (List (Nat × TransactionOutput))) (block : Block)
    (od : OutputValidationData) (e : ValidationError)
    (hsorted : is_all_unique_and_sorted (block.body.outputs.map TransactionOutput.ser) = true)
    (ho : start_output_validation v shards = .ok od)
    (h : start_input_validation v block.header
      (block.body.outputs.map TransactionOutput.hash) block.body.inputs = .error e) :
    validate_block_body v shards block = .error e := by
  simp only [validate_block_body]
  rw [if_neg (not_not_intro hsorted), ho, h]

theorem validate_block_body_kernel_err (v : BlockValidator)
    (shards : List (List (Nat × TransactionOutput))) (block : Block)
    (od : OutputValidationData) (id : InputValidationData) (e : ValidationError)
    (hsorted : is_all_unique_and_sorted (block.body.outputs.map TransactionOutput.ser) = true)
    (ho : start_output_validation v shards = .ok od)
    (hi : start_input_validation v block.header
      (block.body.outputs.map TransactionOutput.hash) block.body.inputs = .ok id)
    (h : start_kernel_validation v block.header block.body.kernels = .error e) :
    validate_block_body v shards block = .error e := by
  simp only [validate_block_body]
  rw [if_neg (not_not_intro hsorted), ho, hi, h]

theorem validate_block_body_congr (v : BlockValidator)
    (shards₁ shards₂ : List (List (Nat × TransactionOutput))) (block : Block)
    (h : start_output_validation v shards₁ = start_output_validation v shards₂) :
    validate_block_body v shards₁ block = validate_block_body v shards₂ block := by
  simp only [validate_block_body, h]

theorem validate_block_body_ok_inv (v : BlockValidator)
    (shards : List (List (Nat × TransactionOutput))) (block : Block) (b : Block)
    (h : validate_block_body v shards block = .ok b) :
    ∃ od id kd,
      is_all_unique_and_sorted (block.body.outputs.map TransactionOutput.ser) = true ∧
      start_output_validation v shards = .ok od ∧
      start_input_validation v block.header
        (block.body.outputs.map TransactionOutput.hash) block.body.inputs = .ok id ∧
      start_kernel_validation v block.header block.body.kernels = .ok kd ∧
      v.check_coinbase_reward block.header kd.kernel_sum.fees
        (kd.coinbase.getD defaultKernel) (od.coinbase.getD defaultOutput) = .ok () ∧
      v.check_script_offset block.header od.aggregate_offset_pubkey
        id.aggregate_input_key = .ok () ∧
      v.check_kernel_sum kd.kernel_sum od.commitment_sum id.commitment_sum = .ok () ∧
      b = { header := block.header,
            body := { inputs := id.inputs, outputs := od.outputs, kernels := kd.kernels } } := by
  simp only [validate_block_body] at h
  split at h
  next hcond => cases h
  next hcond =>
    have hsorted : is_all_unique_and_sorted
        (block.body.outputs.map TransactionOutput.ser) = true := by
      simpa using hcond
    split at h
    next e heqo => cases h
    next od heqo =>
      split at h
      next e heqi => cases h
      next id heqi =>
        split at h
        next e heqk => cases h
        next kd heqk =>
          split at h
          next e heqc => cases h
          next u heqc =>
            split at h
            next e heqs => cases h
            next u2 heqs =>
              split at h
              next e heqn => cases h
              next u3 heqn =>
                simp only [Except.ok.injEq] at h
                subst h
                exact ⟨od, id, kd, hsorted, heqo, heqi, heqk, heqc, heqs, heqn, rfl⟩

theorem validate_block_body_ok_of (v : BlockValidator)
    (shards : List (List (Nat × TransactionOutput))) (block : Block)
    (od : OutputValidationData) (id : InputValidationData) (kd : KernelValidationData)
    (hsorted : is_all_unique_and_sorted (block.body.outputs.map TransactionOutput.ser) = true)
    (ho : start_output_validation v shards = .ok od)
    (hi : start_input_validation v block.header
      (block.body.outputs.map TransactionOutput.hash) block.body.inputs = .ok id)
    (hk : start_kernel_validation v block.header block.body.kernels = .ok kd)
    (hc : v.check_coinbase_reward block.header kd.kernel_sum.fees
      (kd.coinbase.getD defaultKernel) (od.coinbase.getD defaultOutput) = .ok ())
    (hs : v.check_script_offset block.header od.aggregate_offset_pubkey
      id.aggregate_input_key = .ok ())
    (hn : v.check_kernel_sum kd.kernel_sum od.commitment_sum id.commitment_sum = .ok ()) :
    validate_block_body v shards block =
      .ok { header := block.header,
            body := { inputs := id.inputs, outputs := od.outputs, kernels := kd.kernels } } := by
  simp only [validate_block_body]
  rw [if_neg (not_not_intro hsorted)]
  simp only [ho, hi, hk, hc, hs, hn]

theorem validate_body_weight_err (v : BlockValidator)
    (shards : List (List (Nat × TransactionOutput))) (block : Block) (e : ValidationError)
    (h : v.check_block_weight block = .error e) :
    validate_body v shards block = .error e := by
  simp only [validate_body]
  rw [h]

theorem validate_body_body_err (v : BlockValidator)
    (shards : List (List (Nat × TransactionOutput))) (block : Block) (e : ValidationError)
    (hw : v.check_block_weight block = .ok ())
    (h : validate_block_body v shards block = .error e) :
    validate_body v shards block = .error e := by
  simp only [validate_body]
  simp only [hw, h]

theorem validate_body_ok_inv (v : BlockValidator)
    (shards : List (List (Nat × TransactionOutput))) (block : Block) (b : Block)
    (h : validate_body v shards block = .ok b) :
    v.check_block_weight block = .ok () ∧
    validate_block_body v shards block = .ok b ∧
    v.check_mmr_roots_stage b = .ok () := by
  simp only [validate_body] at h
  split at h
  next e heqw => cases h
  next u heqw =>
    split at h
    next e heqb => cases h
    next b' heqb =>
      split at h
      next e heqm => cases h
      next u2 heqm =>
        simp only [Except.ok.injEq] at h
        subst h
        exact ⟨heqw, heqb, heqm⟩

theorem validate_body_ok_of (v : BlockValidator)
    (shards : List (List (Nat × TransactionOutput))) (block : Block) (b : Block)
    (hw : v.check_block_weight block = .ok ())
    (hb : validate_block_body v shards block = .ok b)
    (hm : v.check_mmr_roots_stage b = .ok ()) :
    validate_body v shards block = .ok b := by
  simp only [validate_body]
  simp only [hw, hb, hm]

theorem enum_find_of_count_one (outputs : List TransactionOutput)
    (h : outputs.countP TransactionOutput.is_coinbase = 1) :
    ∃ j o, (enumFrom 0 outputs).find? (fun p => p.2.is_coinbase) = some (j, o) := by
  have hpos : 0 < (enumFrom 0 outputs).countP (fun p => p.2.is_coinbase) := by
    rw [enumFrom_countP]
    omega
  rw [List.countP_pos_iff] at hpos
  obtain ⟨x, hx, hpx⟩ := hpos
  have hcnt : (enumFrom 0 outputs).countP (fun p => p.2.is_coinbase) = 1 := by
    rw [enumFrom_countP]
    exact h
  refine ⟨x.1, x.2, ?_⟩
  rw [show ((x.1, x.2) : Nat × TransactionOutput) = x from rfl]
  exact find?_eq_of_unique _ _ x hx hpx
    (fun y hy hpy => count_one_unique _ _ hcnt y x hy hpy hx hpx)

theorem start_output_validation_ok_unique (v : BlockValidator)
    (outputs : List TransactionOutput)
    (shards : List (List (Nat × TransactionOutput))) (od : OutputValidationData)
    (hperm : List.Perm (concatShards shards) (enumFrom 0 outputs))
    (h : start_output_validation v shards = .ok od) :
    ∃ j o, (enumFrom 0 outputs).find? (fun p => p.2.is_coinbase) = some (j, o) ∧
      od = { outputs := outputs, commitment_sum := outputCommitSum outputs,
             aggregate_offset_pubkey := outputOffsetSum outputs, coinbase_index := j } := by
  obtain ⟨hall, hcount⟩ := start_output_validation_ok_inv v outputs shards od hperm h
  obtain ⟨j, o, hfind⟩ := enum_find_of_count_one outputs hcount
  have heq := start_output_validation_ok v outputs shards j o hperm hall hcount hfind
  rw [heq] at h
  simp only [Except.ok.injEq] at h
  exact ⟨j, o, hfind, h.symm⟩

theorem not_missing_of_resolved (v : BlockValidator) (hashes : List Nat)
    (x : TransactionInput) (h : utxoResolved v hashes x) :
    inputMissing v hashes x = false := by
  rcases h with h | ⟨h, h2⟩
  · simp [inputMissing, h]
  · simp only [inputMissing]
    rw [h, h2]
    simp

theorem benign_of_resolved (v : BlockValidator) (hashes : List Nat)
    (x : TransactionInput) (h : utxoResolved v hashes x) : utxoBenign v x := by
  rcases h with h | ⟨h, -⟩
  · exact Or.inl h
  · exact Or.inr h

theorem start_output_validation_equiv (v : BlockValidator) (outputs : List TransactionOutput)
    (shards₁ shards₂ : List (List (Nat × TransactionOutput)))
    (h1 : List.Perm (concatShards shards₁) (enumFrom 0 outputs))
    (h2 : List.Perm (concatShards shards₂) (enumFrom 0 outputs)) :
    start_output_validation v shards₁ = start_output_validation v shards₂ ∨
    (isOkE (start_output_validation v shards₁) = false ∧
     isOkE (start_output_validation v shards₂) = false) := by
  by_cases hP : (∀ x ∈ outputs, outputChecksPass v x) ∧
      outputs.countP TransactionOutput.is_coinbase = 1
  · obtain ⟨hall, hcount⟩ := hP
    obtain ⟨j, o, hfind⟩ := enum_find_of_count_one outputs hcount
    left
    rw [start_output_validation_ok v outputs shards₁ j o h1 hall hcount hfind,
      start_output_validation_ok v outputs shards₂ j o h2 hall hcount hfind]
  · right
    constructor
    · cases hr : start_output_validation v shards₁ with
      | error e => rfl
      | ok d => exact absurd (start_output_validation_ok_inv v outputs shards₁ d h1 hr) hP
    · cases hr : start_output_validation v shards₂ with
      | error e => rfl
      | ok d => exact absurd (start_output_validation_ok_inv v outputs shards₂ d h2 hr) hP

/-- C1: the kernel validator starts its running sum at
commit(total_kernel_offset, coinbase_and_fees(height, kernels)); for each
kernel in order it verifies the Schnorr excess signature (failing with
InvalidSignature), rejects a second coinbase kernel with
MoreThanOneCoinbase, and accumulates max timelock, fees and excess; after
the loop it fails with MaturityError if the max lock height exceeds the
header height, with NoCoinbase if no coinbase kernel was seen, and
otherwise returns the kernels, the accumulated kernel sum and the
coinbase index. -/
theorem kernel_validator_spec (v : BlockValidator) (header : BlockHeader)
    (kernels : List TransactionKernel) :
    (∀ ci, cbIdxFrom 0 kernels = some ci →
      (∀ k ∈ kernels, k.sig_valid = true) →
      kernels.countP TransactionKernel.is_coinbase = 1 →
      (∀ k ∈ kernels, k.lock_height ≤ header.height) →
      start_kernel_validation v header kernels =
        .ok { kernels := kernels,
              kernel_sum := { sum := kernelOffset v header kernels + kernelExcessSum kernels,
                              fees := kernelFeeSum kernels },
              coinbase_index := ci }) ∧
    (∀ ks₁ k ks₂, kernels = ks₁ ++ k :: ks₂ →
      (∀ x ∈ ks₁, x.sig_valid = true) →
      ks₁.countP TransactionKernel.is_coinbase ≤ 1 →
      k.sig_valid = false →
      start_kernel_validation v header kernels =
        .error (.TransactionError .InvalidSignature)) ∧
    ((∀ k ∈ kernels, k.sig_valid = true) →
      2 ≤ kernels.countP TransactionKernel.is_coinbase →
      start_kernel_validation v header kernels =
        .error (.TransactionError .MoreThanOneCoinbase)) ∧
    ((∀ k ∈ kernels, k.sig_valid = true) →
      kernels.countP TransactionKernel.is_coinbase ≤ 1 →
      (∃ k ∈ kernels, header.height < k.lock_height) →
      start_kernel_validation v header kernels = .error .MaturityError) ∧
    ((∀ k ∈ kernels, k.sig_valid = true) →
      kernels.countP TransactionKernel.is_coinbase = 0 →
      (∀ k ∈ kernels, k.lock_height ≤ header.height) →
      start_kernel_validation v header kernels = .error (.TransactionError .NoCoinbase)) := by
  refine ⟨?_, ?_, ?_, ?_, ?_⟩
  · intro ci hci hsig hcb hlock
    exact start_kernel_validation_ok v header kernels ci hsig hcb hlock hci
  · intro ks₁ k ks₂ hsplit hsig hcb hk
    rw [hsplit]
    exact start_kernel_validation_err_sig v header ks₁ k ks₂ hsig hcb hk
  · intro hsig hcb
    exact start_kernel_validation_err_mtoc v header kernels hsig hcb
  · intro hsig hcb hlock
    exact start_kernel_validation_err_maturity v header kernels hsig hcb hlock
  · intro hsig hcb hlock
    exact start_kernel_validation_err_nocb v header kernels hsig hcb hlock

/-- Witness for C1: concrete runs of the kernel validator through the
success, invalid-signature and double-coinbase paths. -/
theorem kernel_validator_spec_witness :
    start_kernel_validation wValidator wHeader [wCbK, wK2] =
      .ok { kernels := [wCbK, wK2],
            kernel_sum := { sum := kernelOffset wValidator wHeader [wCbK, wK2] +
                              kernelExcessSum [wCbK, wK2],
                            fees := kernelFeeSum [wCbK, wK2] },
            coinbase_index := 0 } ∧
    start_kernel_validation wValidator wHeader [wCbK, wBadK] =
      .error (.TransactionError .InvalidSignature) ∧
    start_kernel_validation wValidator wHeader [wCbK, wCbK] =
      .error (.TransactionError .MoreThanOneCoinbase) := by
  refine ⟨?_, ?_, ?_⟩
  · exact (kernel_validator_spec wValidator wHeader [wCbK, wK2]).1 0
      (by decide) (by decide) (by decide) (by decide)
  · exact (kernel_validator_spec wValidator wHeader [wCbK, wBadK]).2.1 [wCbK] wBadK []
      (by decide) (by decide) (by decide) (by decide)
  · exact (kernel_validator_spec wValidator wHeader [wCbK, wCbK]).2.2.1
      (by decide) (by decide)

/-- C2: for every block accepted by validate_body exactly one kernel and
exactly one output carry the coinbase flag; with all per-element checks
passing, a second coinbase kernel or output yields MoreThanOneCoinbase
and a missing one yields NoCoinbase. -/
theorem coinbase_uniqueness (v : BlockValidator)
    (shards : List (List (Nat × TransactionOutput))) (block : Block) :
    (∀ b, Sharded v block.body.outputs shards →
      validate_body v shards block = .ok b →
      b.body.kernels.countP TransactionKernel.is_coinbase = 1 ∧
      b.body.outputs.countP TransactionOutput.is_coinbase = 1) ∧
    ((∀ k ∈ block.body.kernels, k.sig_valid = true) →
      2 ≤ block.body.kernels.countP TransactionKernel.is_coinbase →
      start_kernel_validation v block.header block.body.kernels =
        .error (.TransactionError .MoreThanOneCoinbase)) ∧
    ((∀ k ∈ block.body.kernels, k.sig_valid = true) →
      block.body.kernels.countP TransactionKernel.is_coinbase = 0 →
      (∀ k ∈ block.body.kernels, k.lock_height ≤ block.header.height) →
      start_kernel_validation v block.header block.body.kernels =
        .error (.TransactionError .NoCoinbase)) ∧
    ((∀ x ∈ block.body.outputs, outputChecksPass v x) →
      List.Perm (concatShards shards) (enumFrom 0 block.body.outputs) →
      2 ≤ block.body.outputs.countP TransactionOutput.is_coinbase →
      start_output_validation v shards = .error (.TransactionError .MoreThanOneCoinbase)) ∧
    ((∀ x ∈ block.body.outputs, outputChecksPass v x) →
      List.Perm (concatShards shards) (enumFrom 0 block.body.outputs) →
      block.body.outputs.countP TransactionOutput.is_coinbase = 0 →
      start_output_validation v shards = .error (.TransactionError .NoCoinbase)) := by
  refine ⟨?_, ?_, ?_, ?_, ?_⟩
  · intro b hsh hok
    obtain ⟨hw, hbb, hm⟩ := validate_body_ok_inv v shards block b hok
    obtain ⟨od, id, kd, hsorted, heqo, heqi, heqk, -, -, -, hb⟩ :=
      validate_block_body_ok_inv v shards block b hbb
    obtain ⟨-, hkcount, -, -, hkds, -⟩ :=
      start_kernel_validation_ok_inv v block.header block.body.kernels kd heqk
    obtain ⟨hall, hocount⟩ :=
      start_output_validation_ok_inv v block.body.outputs shards od hsh.2 heqo
    obtain ⟨j, o, hfind, hodval⟩ :=
      start_output_validation_ok_unique v block.body.outputs shards od hsh.2 heqo
    subst hb
    constructor
    · simpa [hkds] using hkcount
    · rw [show od.outputs = block.body.outputs by rw [hodval]]
      exact hocount
  · intro hsig hcb
    exact start_kernel_validation_err_mtoc v block.header block.body.kernels hsig hcb
  · intro hsig hcb hlock
    exact start_kernel_validation_err_nocb v block.header block.body.kernels hsig hcb hlock
  · intro hall hperm hcb
    exact start_output_validation_mtoc v block.body.outputs shards hperm hall hcb
  · intro hall hperm hcb
    exact start_output_validation_nocb v block.body.outputs shards hperm hall hcb

/-- Witness for C2: the minimal valid block is accepted and carries
exactly one coinbase kernel and one coinbase output. -/
theorem coinbase_uniqueness_witness :
    wBlock.body.kernels.countP TransactionKernel.is_coinbase = 1 ∧
    wBlock.body.outputs.countP TransactionOutput.is_coinbase = 1 :=
  (coinbase_uniqueness wValidator wShards wBlock).1 wBlock
    ⟨by decide, by decide⟩ (by decide)

/-- C3: on acceptance the returned block's input, output and kernel
sequences are element-for-element the sequences of the input block; the
outputs distributed over workers are restored to their original
positions by sorting on the original index. -/
theorem returned_body_preserved (v : BlockValidator)
    (shards : List (List (Nat × TransactionOutput))) (block b : Block)
    (hsh : Sharded v block.body.outputs shards)
    (h : validate_body v shards block = .ok b) :
    b.header = block.header ∧
    b.body.inputs = block.body.inputs ∧
    b.body.outputs = block.body.outputs ∧
    b.body.kernels = block.body.kernels := by
  obtain ⟨hw, hbb, hm⟩ := validate_body_ok_inv v shards block b h
  obtain ⟨od, id, kd, hsorted, heqo, heqi, heqk, -, -, -, hb⟩ :=
    validate_block_body_ok_inv v shards block b hbb
  obtain ⟨-, -, -, -, hids, -, -⟩ :=
    start_input_validation_ok_inv v block.header
      (block.body.outputs.map TransactionOutput.hash) block.body.inputs id heqi
  obtain ⟨-, -, -, -, hkds, -⟩ :=
    start_kernel_validation_ok_inv v block.header block.body.kernels kd heqk
  obtain ⟨j, o, hfind, hodval⟩ :=
    start_output_validation_ok_unique v block.body.outputs shards od hsh.2 heqo
  subst hb
  refine ⟨rfl, ?_, ?_, ?_⟩
  · simpa using hids
  · rw [show od.outputs = block.body.outputs by rw [hodval]]
  · simpa using hkds

/-- Witness for C3: the accepted minimal block comes back unchanged. -/
theorem returned_body_preserved_witness :
    wBlock.header = wBlock.header ∧
    wBlock.body.inputs = wBlock.body.inputs ∧
    wBlock.body.outputs = wBlock.body.outputs ∧
    wBlock.body.kernels = wBlock.body.kernels :=
  returned_body_preserved wValidator wShards wBlock wBlock
    ⟨by decide, by decide⟩ (by decide)

/-- C4: for every assignment of the outputs to worker pop sequences and
every join order, validate_body reaches the same accept/reject decision
and, on acceptance, the identical returned block; in particular the
one-worker sequential pop sequence (the reversed enumerated queue) is
one such assignment. -/
theorem sharding_equivalence (v : BlockValidator) (block : Block)
    (shards₁ shards₂ : List (List (Nat × TransactionOutput)))
    (h1 : List.Perm (concatShards shards₁) (enumFrom 0 block.body.outputs))
    (h2 : List.Perm (concatShards shards₂) (enumFrom 0 block.body.outputs)) :
    isOkE (validate_body v shards₁ block) = isOkE (validate_body v shards₂ block) ∧
    (∀ b, validate_body v shards₁ block = .ok b → validate_body v shards₂ block = .ok b) ∧
    List.Perm (concatShards [(enumFrom 0 block.body.outputs).reverse])
      (enumFrom 0 block.body.outputs) := by
  have hthird : List.Perm (concatShards [(enumFrom 0 block.body.outputs).reverse])
      (enumFrom 0 block.body.outputs) := by
    rw [concatShards, concatShards, List.append_nil]
    exact List.reverse_perm _
  cases hw : v.check_block_weight block with
  | error e =>
    refine ⟨?_, ?_, hthird⟩
    · rw [validate_body_weight_err v shards₁ block e hw,
        validate_body_weight_err v shards₂ block e hw]
    · intro b hb
      rw [validate_body_weight_err v shards₁ block e hw] at hb
      cases hb
  | ok u =>
    cases u
    rcases start_output_validation_equiv v block.body.outputs shards₁ shards₂ h1 h2 with
      heq | ⟨he1, he2⟩
    · have hvb : validate_body v shards₁ block = validate_body v shards₂ block := by
        simp only [validate_body, validate_block_body_congr v shards₁ shards₂ block heq]
      rw [hvb]
      exact ⟨rfl, fun b hb => hb, hthird⟩
    · by_cases hsorted :
        is_all_unique_and_sorted (block.body.outputs.map TransactionOutput.ser) = true
      · rcases hr1 : start_output_validation v shards₁ with e1 | d1
        · rcases hr2 : start_output_validation v shards₂ with e2 | d2
          · have hv1 := validate_body_body_err v shards₁ block e1 hw
              (validate_block_body_output_err v shards₁ block e1 hsorted hr1)
            have hv2 := validate_body_body_err v shards₂ block e2 hw
              (validate_block_body_output_err v shards₂ block e2 hsorted hr2)
            refine ⟨by rw [hv1, hv2]; rfl, ?_, hthird⟩
            intro b hb
            rw [hv1] at hb
            cases hb
          · rw [hr2] at he2
            simp [isOkE] at he2
        · rw [hr1] at he1
          simp [isOkE] at he1
      · have hsf : is_all_unique_and_sorted
            (block.body.outputs.map TransactionOutput.ser) = false := by
          cases hE : is_all_unique_and_sorted (block.body.outputs.map TransactionOutput.ser)
          · rfl
          · exact absurd hE hsorted
        have hv1 := validate_body_body_err v shards₁ block .UnsortedOrDuplicateOutput hw
          (validate_block_body_unsorted_outputs v shards₁ block hsf)
        have hv2 := validate_body_body_err v shards₂ block .UnsortedOrDuplicateOutput hw
          (validate_block_body_unsorted_outputs v shards₂ block hsf)
        refine ⟨by rw [hv1, hv2], ?_, hthird⟩
        intro b hb
        rw [hv1] at hb
        cases hb

/-- Witness for C4: a two-worker sharding and a one-worker sharding of a
concrete two-output block reach the same decision. -/
theorem sharding_equivalence_witness :
    isOkE (validate_body wValidator [[(1, wOutB)], [(0, wOut)]] wBlockB) =
      isOkE (validate_body wValidator [[(1, wOutB), (0, wOut)]] wBlockB) :=
  (sharding_equivalence wValidator wBlockB [[(1, wOutB)], [(0, wOut)]]
    [[(1, wOutB), (0, wOut)]] (by decide) (by decide)).1

/-- C5: with the inputs strictly sorted and mature and the UTXO lookups
benign, a first missing input (in neither the snapshot nor the block's
own output hashes) makes input validation fail with UnknownInputs
carrying the complete list of all missing hashes, and script results on
inputs after the first missing one are not consulted (a script failure
there cannot change the returned error). -/
theorem unknown_inputs_complete (v : BlockValidator) (header : BlockHeader)
    (output_hashes : List Nat) (pre : List TransactionInput) (m : TransactionInput)
    (rest : List TransactionInput)
    (hsort : List.Chain' (fun a b => a.ser < b.ser) (pre ++ m :: rest))
    (hmat : ∀ x ∈ pre ++ m :: rest, x.maturity ≤ header.height)
    (hben : ∀ x ∈ pre ++ m :: rest, utxoBenign v x)
    (hpre : ∀ x ∈ pre, inputMissing v output_hashes x = false)
    (hscript : ∀ x ∈ pre, x.script_key.isSome = true)
    (hm : inputMissing v output_hashes m = true) :
    start_input_validation v header output_hashes (pre ++ m :: rest) =
      .error (.UnknownInputs (notFoundList v output_hashes (pre ++ m :: rest))) :=
  start_input_validation_unknown v header output_hashes pre m rest
    hsort hmat hben hpre hscript hm

/-- Witness for C5: two missing inputs, one behind a resolved one; both
hashes are reported, and the second missing input's script result is
irrelevant. -/
theorem unknown_inputs_complete_witness :
    start_input_validation wValidator wHeader [2] ([wIn1] ++ wIn2 :: [wIn3]) =
      .error (.UnknownInputs (notFoundList wValidator [2] ([wIn1] ++ wIn2 :: [wIn3]))) ∧
    notFoundList wValidator [2] ([wIn1] ++ wIn2 :: [wIn3]) = [3, 5] :=
  ⟨unknown_inputs_complete wValidator wHeader [2] [wIn1] wIn2 [wIn3]
      (by simp [List.chain'_cons, wIn1, wIn2, wIn3])
      (by decide) (by decide) (by decide) (by decide) (by decide),
    by decide⟩

theorem mem_of_getElem_opt {α : Type} (l : List α) (i : Nat) (a : α)
    (h : l[i]? = some a) : a ∈ l := by
  obtain ⟨hlt, rfl⟩ := List.getElem?_eq_some.mp h
  exact l.getElem_mem hlt

theorem kernelExcessSum_perm (ks ks' : List TransactionKernel)
    (h : List.Perm ks ks') : kernelExcessSum ks = kernelExcessSum ks' :=
  (h.map TransactionKernel.excess).sum_eq

theorem kernelFeeSum_perm (ks ks' : List TransactionKernel)
    (h : List.Perm ks ks') : kernelFeeSum ks = kernelFeeSum ks' :=
  (h.map TransactionKernel.fee).sum_eq

theorem cbIdx_elem (ks : List TransactionKernel) (j : Nat)
    (h : cbIdxFrom 0 ks = some j) :
    ∃ k, ks[j]? = some k ∧ k.is_coinbase = true := by
  obtain ⟨k, -, hget, hcb⟩ := cbIdxFrom_spec 0 j ks h
  exact ⟨k, by simpa using hget, hcb⟩

/-- C6 counterexample: a block accepted by validate_body whose kernel
sequence, permuted out of canonical order, re-validates successfully:
no Unsorted-type error is raised for kernels. -/
theorem canonical_order_recheck_cex :
    validate_body wValidator wShards wBlock2 = .ok wBlock2 ∧
    List.Perm wBlock2s.body.kernels wBlock2.body.kernels ∧
    is_all_unique_and_sorted (wBlock2s.body.kernels.map TransactionKernel.ser) = false ∧
    validate_body wValidator wShards wBlock2s = .ok wBlock2s := by
  refine ⟨by decide, ?_, by decide, by decide⟩
  exact List.Perm.swap wCbK wK2 []

/-- C6 (amended): for a block accepted by validate_block_body, permuting
the outputs out of canonical order makes re-validation fail with
UnsortedOrDuplicateOutput, and permuting the inputs out of strict order
fails with UnsortedOrDuplicateInput; permuting the kernels, however, is
NOT detected: as long as the consensus coinbase-and-fees rule does not
distinguish kernel order, the kernel-permuted block is accepted again. -/
theorem canonical_order_recheck (v : BlockValidator)
    (shards : List (List (Nat × TransactionOutput))) (block b : Block)
    (hacc : validate_block_body v shards block = .ok b)
    (hrules : ∀ h ks ks', List.Perm ks ks' →
      v.calculate_coinbase_and_fees h ks = v.calculate_coinbase_and_fees h ks') :
    (∀ outputs', List.Perm outputs' block.body.outputs →
      is_all_unique_and_sorted (outputs'.map TransactionOutput.ser) = false →
      ∀ shards', validate_block_body v shards'
        { block with body := { block.body with outputs := outputs' } } =
          .error .UnsortedOrDuplicateOutput) ∧
    (∀ inputs', List.Perm inputs' block.body.inputs →
      ¬ List.Chain' (fun a b => a.ser < b.ser) inputs' →
      validate_block_body v shards
        { block with body := { block.body with inputs := inputs' } } =
          .error .UnsortedOrDuplicateInput) ∧
    (∀ kernels', List.Perm kernels' block.body.kernels →
      isOkE (validate_block_body v shards
        { block with body := { block.body with kernels := kernels' } }) = true) := by
  obtain ⟨od, id, kd, hsorted, ho, hi, hk, hc, hs, hn, hb⟩ :=
    validate_block_body_ok_inv v shards block b hacc
  refine ⟨?_, ?_, ?_⟩
  · intro outputs' hperm hns shards'
    exact validate_block_body_unsorted_outputs v shards' _ hns
  · intro inputs' hperm hns
    obtain ⟨hchain, hmat, hres, hscript, -, -, -⟩ :=
      start_input_validation_ok_inv v block.header
        (block.body.outputs.map TransactionOutput.hash) block.body.inputs id hi
    exact validate_block_body_input_err v shards _ od .UnsortedOrDuplicateInput hsorted ho
      (start_input_validation_unsorted v block.header
        (block.body.outputs.map TransactionOutput.hash) inputs'
        (fun x hx => hmat x (hperm.subset hx))
        (fun x hx => benign_of_resolved v _ x (hres x (hperm.subset hx)))
        (fun x hx => not_missing_of_resolved v _ x (hres x (hperm.subset hx)))
        (fun x hx => hscript x (hperm.subset hx)) hns)
  · intro kernels' hperm
    obtain ⟨hsig, hcb, hlock, hci, hkeq, hksum⟩ :=
      start_kernel_validation_ok_inv v block.header block.body.kernels kd hk
    have hcb' : kernels'.countP TransactionKernel.is_coinbase = 1 := by
      rw [hperm.countP_eq]; exact hcb
    have hciS : (cbIdxFrom 0 kernels').isSome :=
      cbIdxFrom_isSome 0 kernels' (by omega)
    obtain ⟨ci', hci'⟩ := Option.isSome_iff_exists.mp hciS
    have hok' := start_kernel_validation_ok v block.header kernels' ci'
      (fun k hk' => hsig k (hperm.subset hk'))
      hcb' (fun k hk' => hlock k (hperm.subset hk')) hci'
    obtain ⟨k', hget', hcbk'⟩ := cbIdx_elem kernels' ci' hci'
    obtain ⟨k, hget, hcbk⟩ := cbIdx_elem block.body.kernels kd.coinbase_index hci
    have hkk : k' = k := count_one_unique TransactionKernel.is_coinbase
      block.body.kernels hcb k' k
      (hperm.subset (mem_of_getElem_opt kernels' ci' k' hget')) hcbk'
      (mem_of_getElem_opt block.body.kernels kd.coinbase_index k hget) hcbk
    have hcbeq : kernels'[ci']? = kd.coinbase := by
      rw [hget', hkk, KernelValidationData.coinbase, hkeq, hget]
    have hsumeq : KernelSum.mk (kernelOffset v block.header kernels' + kernelExcessSum kernels') (kernelFeeSum kernels') = kd.kernel_sum := by
      rw [hksum, kernelOffset, kernelOffset,
        hrules block.header.height kernels' block.body.kernels hperm,
        kernelExcessSum_perm kernels' block.body.kernels hperm,
        kernelFeeSum_perm kernels' block.body.kernels hperm]
    have hfees : kernelFeeSum kernels' = kd.kernel_sum.fees := by
      simp only [hksum]
      exact kernelFeeSum_perm kernels' block.body.kernels hperm
    have hc' : v.check_coinbase_reward block.header (kernelFeeSum kernels') ((kernels'[ci']?).getD defaultKernel) (od.coinbase.getD defaultOutput) = .ok () := by
      rw [hfees, hcbeq]
      exact hc
    have hn' : v.check_kernel_sum (KernelSum.mk (kernelOffset v block.header kernels' + kernelExcessSum kernels') (kernelFeeSum kernels')) od.commitment_sum id.commitment_sum = .ok () := by
      rw [hsumeq]
      exact hn
    have hdone := validate_block_body_ok_of v shards
      { block with body := { block.body with kernels := kernels' } } od id
      (KernelValidationData.mk kernels'
        (KernelSum.mk (kernelOffset v block.header kernels' + kernelExcessSum kernels')
          (kernelFeeSum kernels'))
        ci')
      hsorted ho hi hok' hc' hs hn'
    rw [hdone]
    rfl

/-- Witness for C6: an accepted two-output, two-kernel block; permuting
the outputs is rejected with UnsortedOrDuplicateOutput, while permuting
the kernels is accepted again. -/
theorem canonical_order_recheck_witness :
    validate_block_body wValidator wShards
      { wBlockB with body := { wBlockB.body with outputs := [wOutB, wOut] } } =
      .error .UnsortedOrDuplicateOutput ∧
    isOkE (validate_block_body wValidator [[(0, wOut), (1, wOutB)]]
      { wBlockB with body := { wBlockB.body with kernels := [wK2, wCbK] } }) = true :=
  ⟨(canonical_order_recheck wValidator [[(0, wOut), (1, wOutB)]] wBlockB wBlockB
      (by decide) (fun _ _ _ _ => rfl)).1 [wOutB, wOut] (by decide) (by decide) wShards,
    (canonical_order_recheck wValidator [[(0, wOut), (1, wOutB)]] wBlockB wBlockB
      (by decide) (fun _ _ _ _ => rfl)).2.2 [wK2, wCbK] (List.Perm.swap wCbK wK2 [])⟩

/-- C7: with the outputs in canonical order, the error surfaced by
validate_block_body follows the fixed join order: an output-validation
error wins over everything, then an input-validation error, and a
kernel-validation error is surfaced only when both the output and input
stages succeed. -/
theorem error_priority (v : BlockValidator)
    (shards : List (List (Nat × TransactionOutput))) (block : Block)
    (hsorted : is_all_unique_and_sorted
      (block.body.outputs.map TransactionOutput.ser) = true) :
    (∀ e, start_output_validation v shards = .error e →
      validate_block_body v shards block = .error e) ∧
    (∀ od e, start_output_validation v shards = .ok od →
      start_input_validation v block.header
        (block.body.outputs.map TransactionOutput.hash) block.body.inputs = .error e →
      validate_block_body v shards block = .error e) ∧
    (∀ od id e, start_output_validation v shards = .ok od →
      start_input_validation v block.header
        (block.body.outputs.map TransactionOutput.hash) block.body.inputs = .ok id →
      start_kernel_validation v block.header block.body.kernels = .error e →
      validate_block_body v shards block = .error e) :=
  ⟨fun e he => validate_block_body_output_err v shards block e hsorted he,
    fun od e ho hi => validate_block_body_input_err v shards block od e hsorted ho hi,
    fun od id e ho hi hk =>
      validate_block_body_kernel_err v shards block od id e hsorted ho hi hk⟩

/-- Witness for C7: three concrete blocks, each with a failing kernel,
showing the output error, then the input error, then the kernel error
being the one surfaced. -/
theorem error_priority_witness :
    validate_block_body wValidator [[(0, wOutB)]] wBlkP1 =
      .error (.TransactionError .NoCoinbase) ∧
    validate_block_body wValidator wShards wBlkP2 = .error (.UnknownInputs [3]) ∧
    validate_block_body wValidator wShards wBlkP3 =
      .error (.TransactionError .InvalidSignature) :=
  ⟨(error_priority wValidator [[(0, wOutB)]] wBlkP1 (by decide)).1
      (.TransactionError .NoCoinbase) (by decide),
    (error_priority wValidator wShards wBlkP2 (by decide)).2.1
      { outputs := [wOut], commitment_sum := 5, aggregate_offset_pubkey := 0,
        coinbase_index := 0 }
      (.UnknownInputs [3]) (by decide) (by decide),
    (error_priority wValidator wShards wBlkP3 (by decide)).2.2
      { outputs := [wOut], commitment_sum := 5, aggregate_offset_pubkey := 0,
        coinbase_index := 0 }
      { inputs := [], aggregate_input_key := 0, commitment_sum := 0 }
      (.TransactionError .InvalidSignature) (by decide) (by decide) (by decide)⟩

/-- C8 counterexample: on a block with unsorted outputs, the kernel and
input tasks have already been spawned when the output-order check fails:
the check does not precede all validation work. -/
theorem presort_gate_cex :
    is_all_unique_and_sorted (uBlock.body.outputs.map TransactionOutput.ser) = false ∧
    SpawnEvent.kernelTask ∈ (validate_block_body_traced wValidator wShards uBlock).2 ∧
    SpawnEvent.inputTask ∈ (validate_block_body_traced wValidator wShards uBlock).2 := by
  decide

/-- C8 (amended): when the outputs fail the strict-sort/uniqueness
check, validate_block_body fails with UnsortedOrDuplicateOutput and no
output-validation worker is started; the kernel and input tasks,
however, are spawned before the check runs. -/
theorem presort_gate (v : BlockValidator)
    (shards : List (List (Nat × TransactionOutput))) (block : Block)
    (h : is_all_unique_and_sorted (block.body.outputs.map TransactionOutput.ser) = false) :
    validate_block_body_traced v shards block =
      (.error .UnsortedOrDuplicateOutput, [SpawnEvent.kernelTask, SpawnEvent.inputTask]) ∧
    SpawnEvent.outputWorkers ∉ (validate_block_body_traced v shards block).2 := by
  have ht : validate_block_body_traced v shards block =
      (.error .UnsortedOrDuplicateOutput, [SpawnEvent.kernelTask, SpawnEvent.inputTask]) := by
    simp only [validate_block_body_traced]
    rw [if_pos (by simp [h])]
  refine ⟨ht, ?_⟩
  rw [ht]
  decide

/-- Witness for C8: the unsorted-output block is rejected with the
kernel and input tasks spawned and no output worker started. -/
theorem presort_gate_witness :
    validate_block_body_traced wValidator wShards uBlock =
      (.error .UnsortedOrDuplicateOutput, [SpawnEvent.kernelTask, SpawnEvent.inputTask]) ∧
    SpawnEvent.outputWorkers ∉ (validate_block_body_traced wValidator wShards uBlock).2 :=
  presort_gate wValidator wShards uBlock (by decide)

/-- C9: a block with an empty output sequence that passes the weight
check spawns zero output workers (min(concurrency, 0) = 0), the merge
phase finds no coinbase index, and validate_body fails with NoCoinbase
regardless of the inputs and kernels. -/
theorem empty_outputs_nocoinbase (v : BlockValidator) (block : Block)
    (shards : List (List (Nat × TransactionOutput)))
    (hempty : block.body.outputs = [])
    (hweight : v.check_block_weight block = .ok ())
    (hsh : Sharded v block.body.outputs shards) :
    shards = [] ∧
    validate_body v shards block = .error (.TransactionError .NoCoinbase) := by
  obtain ⟨hlen, hperm⟩ := hsh
  have hsh0 : shards = [] := by
    rw [hempty] at hlen
    simp only [List.length_nil, Nat.min_zero] at hlen
    exact List.length_eq_zero.mp hlen
  subst hsh0
  refine ⟨rfl, ?_⟩
  have hpermE : List.Perm (concatShards []) (enumFrom 0 block.body.outputs) := by
    rw [hempty]
    exact List.Perm.refl []
  have hall : ∀ x ∈ block.body.outputs, outputChecksPass v x := by
    rw [hempty]
    intro x hx
    exact absurd hx (List.not_mem_nil x)
  have hcount : block.body.outputs.countP TransactionOutput.is_coinbase = 0 := by
    rw [hempty]
    rfl
  have hsortedE : is_all_unique_and_sorted
      (block.body.outputs.map TransactionOutput.ser) = true := by
    rw [hempty]
    rfl
  exact validate_body_body_err v [] block (.TransactionError .NoCoinbase) hweight
    (validate_block_body_output_err v [] block (.TransactionError .NoCoinbase) hsortedE
      (start_output_validation_nocb v block.body.outputs [] hpermE hall hcount))

/-- Witness for C9: a concrete empty-output block fails with NoCoinbase
under the empty sharding. -/
theorem empty_outputs_nocoinbase_witness :
    ([] : List (List (Nat × TransactionOutput))) = [] ∧
    validate_body wValidator [] wBlkE = .error (.TransactionError .NoCoinbase) :=
  empty_outputs_nocoinbase wValidator wBlkE [] rfl rfl ⟨by decide, by decide⟩

/-- C10: whenever kernel or output validation returns Ok, the stored
coinbase_index is in bounds for the returned sequence and the coinbase()
accessor returns the element there, which carries the coinbase flag and
is the unique such element of the sequence; for outputs the index refers
to the original (re-sorted) order. -/
theorem coinbase_accessor_sound (v : BlockValidator) (header : BlockHeader) :
    (∀ kernels kd, start_kernel_validation v header kernels = .ok kd →
      kd.coinbase_index < kd.kernels.length ∧
      ∃ k, kd.coinbase = some k ∧ k.is_coinbase = true ∧
        ∀ k' ∈ kd.kernels, k'.is_coinbase = true → k' = k) ∧
    (∀ outputs shards od, List.Perm (concatShards shards) (enumFrom 0 outputs) →
      start_output_validation v shards = .ok od →
      od.coinbase_index < od.outputs.length ∧
      ∃ o, od.coinbase = some o ∧ o.is_coinbase = true ∧
        ∀ o' ∈ od.outputs, o'.is_coinbase = true → o' = o) := by
  constructor
  · intro kernels kd h
    obtain ⟨-, hcb, -, hci, hkeq, -⟩ :=
      start_kernel_validation_ok_inv v header kernels kd h
    obtain ⟨k, hget, hcbk⟩ := cbIdx_elem kernels kd.coinbase_index hci
    obtain ⟨hlt, -⟩ := List.getElem?_eq_some.mp hget
    refine ⟨by rw [hkeq]; exact hlt, k, ?_, hcbk, ?_⟩
    · rw [KernelValidationData.coinbase, hkeq]
      exact hget
    · intro k' hk' hcbk'
      rw [hkeq] at hk'
      exact count_one_unique TransactionKernel.is_coinbase kernels hcb k' k hk' hcbk'
        (mem_of_getElem_opt kernels kd.coinbase_index k hget) hcbk
  · intro outputs shards od hperm h
    obtain ⟨-, hcount⟩ := start_output_validation_ok_inv v outputs shards od hperm h
    obtain ⟨j, o, hfind, hod⟩ :=
      start_output_validation_ok_unique v outputs shards od hperm h
    have hmem : (j, o) ∈ enumFrom 0 outputs := List.mem_of_find?_eq_some hfind
    obtain ⟨-, hget⟩ := enumFrom_get 0 j outputs o hmem
    rw [Nat.sub_zero] at hget
    have hcbo : o.is_coinbase = true := by
      have := List.find?_some hfind
      simpa using this
    obtain ⟨hlt, -⟩ := List.getElem?_eq_some.mp hget
    refine ⟨by rw [hod]; exact hlt, o, ?_, hcbo, ?_⟩
    · rw [hod, OutputValidationData.coinbase]
      exact hget
    · intro o' ho' hcbo'
      rw [hod] at ho'
      exact count_one_unique TransactionOutput.is_coinbase outputs hcount o' o ho' hcbo'
        (mem_of_getElem_opt outputs j o hget) hcbo

/-- Witness for C10: concrete kernel and output validations with the
coinbase accessor landing on the unique coinbase element. -/
theorem coinbase_accessor_sound_witness :
    (KernelValidationData.mk [wCbK, wK2]
        (KernelSum.mk (55 + 7) 3) 0).coinbase_index < 2 ∧
    ∃ k, (KernelValidationData.mk [wCbK, wK2]
        (KernelSum.mk (55 + 7) 3) 0).coinbase = some k ∧ k.is_coinbase = true ∧
      ∀ k' ∈ [wCbK, wK2], k'.is_coinbase = true → k' = k :=
  (coinbase_accessor_sound wValidator wHeader).1 [wCbK, wK2]
    (KernelValidationData.mk [wCbK, wK2] (KernelSum.mk (55 + 7) 3) 0) (by decide)
